import Mathlib

/-!
# gocyclo: the statistics engine (stats.go) and the command (cmd/gocyclo/main.go)

A shallow embedding of `Stats` and its operations (`TotalComplexity`,
`AverageComplexity`, `SortAndFilter`, `Percentile`), of `main`, `regex` and
`printCentile` of the command, together with the part of Go's standard
`sort` package that `SortAndFilter` and `Percentile` call
(`sort.Stable`, `sort.SliceIsSorted`). The `sort` functions follow the Go
standard library (`sort/zsortinterface.go`: `insertionSort`, `stable`,
`symMerge`, `rotate`, `swapRange`; `sort/slice.go`: `SliceIsSorted`), with the
interface methods fixed to those of `byComplexityDesc`.

Conventions.
* Go `int` values that are only compared (Complexity, top, over, k) are `Int`.
* Slice indices and lengths are `Nat`; they never leave the range
  `0 .. len` in the code that is modelled, so truncated subtraction is
  only ever applied to arguments where it agrees with Go's subtraction.
* `uint64` arithmetic is `Nat` arithmetic followed by `% 2^64`.
* `float64` values are mantissa and exponent, with IEEE-754 rounding to nearest
  (ties to even) of conversions and divisions.
* A `for` loop becomes a recursive function whose first argument is the
  number of iterations still allowed; every caller passes the value of the
  loop's decreasing measure, and the loop guard itself is kept.
-/

namespace Gocyclo

/-- Go's token.Position: file name, byte offset, line and column. -/
structure Position where
  Filename : String
  Offset : Int
  Line : Int
  Column : Int
  deriving DecidableEq, Repr, Inhabited

/-- Stat holds the cyclomatic complexity of a function, along with its package
and function name and its position in the source code. -/
structure Stat where
  PkgName : String
  FuncName : String
  Complexity : Int
  Pos : Position
  deriving DecidableEq, Repr, Inhabited

/-- Stats hold the cyclomatic complexities of many functions. -/
abbrev Stats := List Stat

/-- The element at index i (indices used by the code are always in range). -/
def Stats.at (s : Stats) (i : Nat) : Stat := s.getD i default

/-- The Complexity at index i. -/
def Stats.key (s : Stats) (i : Nat) : Int := (s.at i).Complexity

/-! ## byComplexityDesc (stats.go, lines 83-89) -/

/-- The method Len of byComplexityDesc: len(s). -/
def byComplexityDesc.Len (s : Stats) : Nat := s.length

/-- The method Swap of byComplexityDesc: s[i], s[j] = s[j], s[i]. -/
def byComplexityDesc.Swap (s : Stats) (i j : Nat) : Stats :=
  (s.set i (s.at j)).set j (s.at i)

/-- The method Less of byComplexityDesc: s[i].Complexity >= s[j].Complexity. -/
def byComplexityDesc.Less (s : Stats) (i j : Nat) : Bool :=
  decide (s.key i ≥ s.key j)

/-! ## Go's sort package, instantiated at byComplexityDesc -/

open byComplexityDesc in
/-- The inner loop of insertionSort:
for j := i; j > a && data.Less(j, j-1); j-- { data.Swap(j, j-1) }. -/
def sort.insertionSort.inner (a : Nat) : Nat → Stats → Stats
  | 0, s => s
  | j + 1, s =>
    if j + 1 > a && Less s (j + 1) j then inner a j (Swap s (j + 1) j) else s

/-- The outer loop of insertionSort: for i := a + 1; i < b; i++ { inner loop }. -/
def sort.insertionSort.outer (a b : Nat) : Nat → Nat → Stats → Stats
  | 0, _, s => s
  | fuel + 1, i, s =>
    if i < b then outer a b fuel (i + 1) (sort.insertionSort.inner a i s) else s

/-- Go: insertionSort sorts data[a:b] using insertion sort. -/
def sort.insertionSort (s : Stats) (a b : Nat) : Stats :=
  sort.insertionSort.outer a b (b - a) (a + 1) s

open byComplexityDesc in
/-- The loop of swapRange: for i := 0; i < n; i++ { data.Swap(a+i, b+i) }. -/
def sort.swapRange.loop (a b n : Nat) : Nat → Nat → Stats → Stats
  | 0, _, s => s
  | fuel + 1, i, s =>
    if i < n then loop a b n fuel (i + 1) (Swap s (a + i) (b + i)) else s

/-- Go: swapRange exchanges data[a:a+n] and data[b:b+n]. -/
def sort.swapRange (s : Stats) (a b n : Nat) : Stats :=
  sort.swapRange.loop a b n n 0 s

/-- The loop of rotate, returning the final i and the data:
for i != j { if i > j { swapRange(data, m-i, m, j); i -= j }
             else { swapRange(data, m-i, m+j-i, i); j -= i } }. -/
def sort.rotate.loop (m : Nat) : Nat → Nat → Nat → Stats → Nat × Stats
  | 0, i, _, s => (i, s)
  | fuel + 1, i, j, s =>
    if i ≠ j then
      if i > j then loop m fuel (i - j) j (sort.swapRange s (m - i) m j)
      else loop m fuel i (j - i) (sort.swapRange s (m - i) (m + j - i) i)
    else (i, s)

/-- Go: rotate rotates the two consecutive blocks u = data[a:m] and
v = data[m:b] in data: data of the form x u v y is changed to x v u y. -/
def sort.rotate (s : Stats) (a m b : Nat) : Stats :=
  let r := sort.rotate.loop m ((m - a) + (b - m)) (m - a) (b - m) s
  sort.swapRange r.2 (m - r.1) m r.1

open byComplexityDesc in
/-- The binary search of symMerge's first special case (m-a == 1):
for i < j { h := int(uint(i+j) >> 1); if data.Less(h, a) { i = h + 1 } else { j = h } }. -/
def sort.symMerge.searchA (s : Stats) (a : Nat) : Nat → Nat → Nat → Nat
  | 0, i, _ => i
  | fuel + 1, i, j =>
    if i < j then
      let h := (i + j) / 2
      if Less s h a then searchA s a fuel (h + 1) j else searchA s a fuel i h
    else i

open byComplexityDesc in
/-- The binary search of symMerge's second special case (b-m == 1):
for i < j { h := int(uint(i+j) >> 1); if !data.Less(m, h) { i = h + 1 } else { j = h } }. -/
def sort.symMerge.searchB (s : Stats) (m : Nat) : Nat → Nat → Nat → Nat
  | 0, i, _ => i
  | fuel + 1, i, j =>
    if i < j then
      let h := (i + j) / 2
      if !Less s m h then searchB s m fuel (h + 1) j else searchB s m fuel i h
    else i

open byComplexityDesc in
/-- The binary search of symMerge's general case:
for start < r { c := int(uint(start+r) >> 1);
                if !data.Less(p-c, c) { start = c + 1 } else { r = c } }. -/
def sort.symMerge.searchC (s : Stats) (p : Nat) : Nat → Nat → Nat → Nat
  | 0, start, _ => start
  | fuel + 1, start, r =>
    if start < r then
      let c := (start + r) / 2
      if !Less s (p - c) c then searchC s p fuel (c + 1) r else searchC s p fuel start c
    else start

open byComplexityDesc in
/-- The loop for k := a; k < i-1; k++ { data.Swap(k, k+1) } of symMerge;
the bound i-1 is passed as e. -/
def sort.symMerge.shiftUp (e : Nat) : Nat → Nat → Stats → Stats
  | 0, _, s => s
  | fuel + 1, k, s =>
    if k < e then shiftUp e fuel (k + 1) (Swap s k (k + 1)) else s

open byComplexityDesc in
/-- The loop for k := m; k > i; k-- { data.Swap(k, k-1) } of symMerge. -/
def sort.symMerge.shiftDown (i : Nat) : Nat → Stats → Stats
  | 0, s => s
  | k + 1, s =>
    if k + 1 > i then shiftDown i k (Swap s (k + 1) k) else s

/-- Go: symMerge merges the two sorted subsequences data[a:m] and data[m:b]
using the SymMerge algorithm (Kim and Kutzner); it requires a < m < b.
The first argument bounds the recursion depth. -/
def sort.symMerge.go : Nat → Stats → Nat → Nat → Nat → Stats
  | 0, s, _, _, _ => s
  | fuel + 1, s, a, m, b =>
    if m - a = 1 then
      let i := sort.symMerge.searchA s a (b - m) m b
      sort.symMerge.shiftUp (i - 1) (i - 1 - a) a s
    else if b - m = 1 then
      let i := sort.symMerge.searchB s m (m - a) a m
      sort.symMerge.shiftDown i m s
    else
      let mid := (a + b) / 2
      let n := mid + m
      let start₀ := if m > mid then n - b else a
      let r := if m > mid then mid else m
      let p := n - 1
      let start := sort.symMerge.searchC s p (r - start₀) start₀ r
      let end_ := n - start
      let s₁ := if start < m ∧ m < end_ then sort.rotate s start m end_ else s
      let s₂ := if a < start ∧ start < mid then go fuel s₁ a start mid else s₁
      if mid < end_ ∧ end_ < b then go fuel s₂ mid end_ b else s₂

/-- Go: symMerge(data, a, m, b). -/
def sort.symMerge (s : Stats) (a m b : Nat) : Stats :=
  sort.symMerge.go (b - a) s a m b

/-- The first loop of stable, returning the final a and the data:
for b <= n { insertionSort(data, a, b); a = b; b += blockSize }. -/
def sort.stable.blocks (n blockSize : Nat) : Nat → Nat → Nat → Stats → Nat × Stats
  | 0, a, _, s => (a, s)
  | fuel + 1, a, b, s =>
    if b ≤ n then blocks n blockSize fuel b (b + blockSize) (sort.insertionSort s a b)
    else (a, s)

/-- The inner loop of stable's merge phase, returning the final a and the data:
for b <= n { symMerge(data, a, a+blockSize, b); a = b; b += 2 * blockSize }. -/
def sort.stable.mergePass (n blockSize : Nat) : Nat → Nat → Nat → Stats → Nat × Stats
  | 0, a, _, s => (a, s)
  | fuel + 1, a, b, s =>
    if b ≤ n then
      mergePass n blockSize fuel b (b + 2 * blockSize) (sort.symMerge s a (a + blockSize) b)
    else (a, s)

/-- The outer loop of stable's merge phase:
for blockSize < n { a, b = 0, 2*blockSize; inner loop;
                    if m := a + blockSize; m < n { symMerge(data, a, m, n) };
                    blockSize *= 2 }. -/
def sort.stable.mergeLoop (n : Nat) : Nat → Nat → Stats → Stats
  | 0, _, s => s
  | fuel + 1, blockSize, s =>
    if blockSize < n then
      let r := sort.stable.mergePass n blockSize n 0 (2 * blockSize) s
      let s₁ := if r.1 + blockSize < n then sort.symMerge r.2 r.1 (r.1 + blockSize) n else r.2
      mergeLoop n fuel (blockSize * 2) s₁
    else s

/-- Go: stable(data, n), with blockSize := 20. -/
def sort.stable (s : Stats) (n : Nat) : Stats :=
  let r := sort.stable.blocks n 20 n 0 20 s
  let s₁ := sort.insertionSort r.2 r.1 n
  sort.stable.mergeLoop n n 20 s₁

/-- Go: sort.Stable(data) is stable(data, data.Len()). -/
def sort.Stable (s : Stats) : Stats :=
  sort.stable s (byComplexityDesc.Len s)

/-- The loop of sort.SliceIsSorted:
for i := n - 1; i > 0; i-- { if less(i, i-1) { return false } }; return true. -/
def sort.SliceIsSorted.loop (less : Nat → Nat → Bool) : Nat → Bool
  | 0 => true
  | i + 1 => if less (i + 1) i then false else loop less i

/-- Go: sort.SliceIsSorted(x, less) for a slice of length n. -/
def sort.SliceIsSorted (n : Nat) (less : Nat → Nat → Bool) : Bool :=
  sort.SliceIsSorted.loop less (n - 1)

/-! ## stats.go -/

/-- TotalComplexity calculates the total sum of all cyclomatic complexities
in s, in uint64 arithmetic: total += uint64(stat.Complexity). -/
def Stats.TotalComplexity (s : Stats) : Nat :=
  s.foldl (fun total stat => (total + (stat.Complexity % 2 ^ 64).toNat) % 2 ^ 64) 0

/-- The loop of SortAndFilter over the sorted copy result; i is the index
of the first entry of the remaining entries:
for i, stat := range result { if i == top { return result[:i] };
  if stat.Complexity <= over { return result[:i] } }; return result. -/
def Stats.SortAndFilter.loop (top over : Int) (result : Stats) : Nat → Stats → Stats
  | _, [] => result
  | i, stat :: rest =>
    if (i : Int) = top then result.take i
    else if stat.Complexity ≤ over then result.take i
    else loop top over result (i + 1) rest

/-- SortAndFilter sorts the cyclomatic complexities in s in descending order
and returns a slice of s limited to the top N entries with a cyclomatic
complexity greater than over. -/
def Stats.SortAndFilter (s : Stats) (top over : Int) : Stats :=
  let result := sort.Stable s
  Stats.SortAndFilter.loop top over result 0 result

/-- What a Go call does: it returns a value, or the run-time system stops the
program (here: index out of range). -/
inductive Outcome (α : Type) where
  | returns (v : α)
  | indexOutOfRange (index len : Int)
  deriving DecidableEq, Repr

/-- Percentile return k-th percentile, s needs to be sorted and k needs to
be [1,99] or error will be returned. The Go result (int, error) is a pair
whose second component is none for a nil error. -/
def Stats.Percentile (s : Stats) (k : Int) : Outcome (Int × Option String) :=
  if !sort.SliceIsSorted s.length (fun i j => decide (s.key i > s.key j)) then
    .returns (-1, some "stats needs to be sorted before calculating k-th percentile")
  else if k < 1 || k > 99 then
    .returns (-1, some "k needs to be [1,99]")
  else
    let loc : Int := Int.tdiv ((100 - k) * (s.length : Int)) 100 - 1
    let loc : Int := if loc < 0 then 0 else loc
    match s[loc.toNat]? with
    | some stat => .returns (stat.Complexity, none)
    | none => .indexOutOfRange loc s.length


/-! ## Predicates used to state what the sort does -/

/-- The Complexity values of s at the indices a, a+1, ..., b-1 are
non-increasing. -/
def SortedOn (s : Stats) (a b : Nat) : Prop :=
  ∀ i j, a ≤ i → i < j → j < b → s.key j ≤ s.key i

/-- The list t is a rearrangement of s that moves entries only inside the
index range a, ..., b-1: it is a permutation of s, it agrees with s outside
the range, and every entry inside the range comes from inside the range. -/
structure Rearr (a b : Nat) (s t : Stats) : Prop where
  perm : List.Perm t s
  frame : ∀ i, i < a ∨ b ≤ i → t.at i = s.at i
  within : ∀ i, a ≤ i → i < b → ∃ j, a ≤ j ∧ j < b ∧ t.at i = s.at j

/-- All blocks data[x : min(x+B, n)] whose start x is a multiple of B are
sorted. -/
def BlocksSorted (s : Stats) (B n : Nat) : Prop :=
  ∀ x, B ∣ x → SortedOn s x (min (x + B) n)

/-- The Complexity values of s are non-increasing from first to last (equal
neighbours allowed). -/
def Descending (s : Stats) : Prop :=
  List.Pairwise (fun x y => x.Complexity ≥ y.Complexity) s

/-- The test-suite literal {Complexity: c}: every other field has its zero value. -/
def Stat.ofComplexity (c : Int) : Stat :=
  { PkgName := "", FuncName := "", Complexity := c, Pos := ⟨"", 0, 0, 0⟩ }

/-- The Stats literal of the test suite with the given complexities. -/
def Stats.ofComplexities (cs : List Int) : Stats := cs.map Stat.ofComplexity

/-- The Complexity values of s, in order. -/
def Stats.complexities (s : Stats) : List Int := s.map Stat.Complexity

/-- The filter of the -over flag: Complexity strictly greater than over. -/
def isOver (over : Int) (x : Stat) : Bool := decide (over < x.Complexity)

instance (s : Stats) : Decidable (Descending s) :=
  inferInstanceAs (Decidable (List.Pairwise (fun (x y : Stat) => x.Complexity ≥ y.Complexity) s))

/-- Two functions f and g of package p with the same Complexity 1, f found
before g. -/
def exampleTie : Stats :=
  [{ PkgName := "p", FuncName := "f", Complexity := 1, Pos := ⟨"a.go", 10, 3, 1⟩ },
   { PkgName := "p", FuncName := "g", Complexity := 1, Pos := ⟨"a.go", 40, 7, 1⟩ }]

/-! ## cmd/gocyclo/main.go -/

/-- Go's slice indexing s[i] with an int index: none when i is outside
0 .. len(s)-1 (the run-time system then stops the program). -/
def indexAt {α : Type} (s : List α) (i : Int) : Option α :=
  if i < 0 then none else s[i.toNat]?

/-- The table indicators of printCentile. -/
def printCentile.indicators : List String :=
  ["th", "st", "nd", "rd", "th", "th", "th", "th", "th", "th"]

/-- The ordinal indicator chosen by printCentile when a label is printed:
indicator := "th"; if centile < 11 || centile > 13 { indicator = indicators[centile%10] }.
Go's % is the truncated remainder. -/
def printCentile.indicator (centile : Int) : Outcome String :=
  if centile < 11 || centile > 13 then
    match indexAt printCentile.indicators (Int.tmod centile 10) with
    | some indicator => .returns indicator
    | none => .indexOutOfRange (Int.tmod centile 10) 10
  else .returns "th"

/-- Go's printCentile: what it writes to standard output, piece by piece (one
piece per call of fmt.Printf), and how it ends. loc is computed first, the label
(when asked for) is printed next, and s[loc] is evaluated last, without any
clamping of loc. -/
def printCentile (s : Stats) (centile : Int) (label : Bool) : List String × Outcome Unit :=
  let loc : Int := Int.tdiv ((100 - centile) * (s.length : Int)) 100 - 1
  let labelled : List String × Outcome Unit :=
    if label then
      match printCentile.indicator centile with
      | .returns indicator => ([toString centile ++ indicator ++ "-percentile: "], .returns ())
      | .indexOutOfRange i n => ([], .indexOutOfRange i n)
    else ([], .returns ())
  match labelled with
  | (out, .returns _) =>
    match indexAt s loc with
    | some stat => (out ++ [toString stat.Complexity ++ "\n"], .returns ())
    | none => (out, .indexOutOfRange loc s.length)
  | (out, .indexOutOfRange i n) => (out, .indexOutOfRange i n)

/-- The command line of gocyclo as the flag package sees it: for each flag
the value given, or none when the flag is absent, and the remaining arguments
(paths). -/
structure CommandLine where
  over : Option Int
  top : Option Int
  avg : Option Bool
  avgShort : Option Bool
  centile : Option Int
  centileShort : Option Int
  ignore : Option String
  paths : List String
  deriving DecidableEq, Repr

/-- What main calls outside the files at hand: Go's regexp.Compile (only
whether it accepts the expression matters here; a compiled expression is
represented by its source text) and gocyclo.Analyze, whose second argument is
the compiled -ignore expression or nil (none). -/
structure World where
  regexpCompiles : String → Bool
  Analyze : List String → Option String → Stats

/-- How a run of the command ends: a call of os.Exit (a return from main is
exit status 0), or a run-time error (index out of range). -/
inductive Ending where
  | exit (status : Int)
  | indexOutOfRange (index len : Int)
  deriving DecidableEq, Repr

/-- The exit status the operating system sees: after a run-time error the Go
run-time system ends the process with status 2. -/
def Ending.status : Ending → Int
  | .exit status => status
  | .indexOutOfRange _ _ => 2

/-- What the command writes to standard output: a line of printStats, the
pieces of printAverage (the float64 value itself is not computed), and the
pieces of printCentile. -/
inductive Output where
  | stat (s : Stat)
  | averageLabel
  | average (total count : Nat)
  | centile (piece : String)
  deriving DecidableEq, Repr

/-- Go's printStats: one line per entry. -/
def printStats (s : Stats) : List Output := s.map Output.stat

/-- Go's printAverage: the label unless short, then the average of s. -/
def printAverage (s : Stats) (short : Bool) : List Output :=
  (if !short then [Output.averageLabel] else []) ++ [Output.average s.TotalComplexity s.length]

/-- The last statement of main (lines 99-101):
if *over > 0 && len(shownStats) > 0 { os.Exit(1) }; falling off the end of main
is exit status 0. -/
def main.exitCheck (over : Int) (shownStats : Stats) : Ending :=
  if over > 0 && shownStats.length > 0 then .exit 1 else .exit 0

/-- Go's regex (main.go, lines 104-113): nil for the empty expression, the
compiled expression otherwise; when regexp.Compile fails, log.Fatal ends the
run with os.Exit(1). -/
def regex (w : World) (expr : String) : Except Ending (Option String) :=
  if expr = "" then .ok none
  else if w.regexpCompiles expr then .ok (some expr)
  else .error (.exit 1)

/-- Lines 74-101 of main, from the flag values and the result allStats of
gocyclo.Analyze: the standard output and how the run ends. usage() ends the run
with os.Exit(2). -/
def main.report (cl : CommandLine) (allStats : Stats) : List Output × Ending :=
  let over := cl.over.getD 0
  let top := cl.top.getD (-1)
  let avg := cl.avg.getD false
  let avgShort := cl.avgShort.getD false
  let centile := cl.centile.getD 0
  let centileShort := cl.centileShort.getD 0
  let shownStats := allStats.SortAndFilter top over
  let out₁ := printStats shownStats
  let out₂ := out₁ ++ (if avg || avgShort then printAverage allStats avgShort else [])
  if centile > 0 && centileShort > 0 then (out₂, .exit 2)
  else
    let centileLabel := if centile > 0 then true else if centileShort > 0 then false else true
    let centileValue := if centile > 0 then centile else if centileShort > 0 then centileShort
      else 0
    if centileValue > 99 then (out₂, .exit 2)
    else if centileValue > 0 then
      match printCentile (allStats.SortAndFilter (-1) 0) centileValue centileLabel with
      | (pieces, .returns _) =>
        (out₂ ++ pieces.map Output.centile, main.exitCheck over shownStats)
      | (pieces, .indexOutOfRange i n) =>
        (out₂ ++ pieces.map Output.centile, .indexOutOfRange i n)
    else (out₂, main.exitCheck over shownStats)

/-- Go's main, from the parsed command line: without paths usage() ends the
run with os.Exit(2) (lines 68-71); then regex(ignore) is evaluated, Analyze is
called (line 73), and lines 74-101 follow. -/
def main (w : World) (cl : CommandLine) : List Output × Ending :=
  if cl.paths.length = 0 then ([], .exit 2)
  else
    match regex w (cl.ignore.getD "") with
    | .error ending => ([], ending)
    | .ok re => main.report cl (w.Analyze cl.paths re)

/-- The value of allStats at line 73 of main, for a run that gets there. -/
def main.allStats (w : World) (cl : CommandLine) : Stats :=
  match regex w (cl.ignore.getD "") with
  | .error _ => []
  | .ok re => w.Analyze cl.paths re

/-- A world in which Analyze finds the given functions and regexp.Compile
rejects the expression "(" (its closing parenthesis is missing). -/
def exampleWorld (stats : Stats) : World :=
  { regexpCompiles := fun expr => expr != "(", Analyze := fun _ _ => stats }

/-- The English ordinal suffix as the specification words it: th for 11, 12
and 13, otherwise st when K mod 10 = 1, nd when K mod 10 = 2, rd when
K mod 10 = 3, and th in every other case. -/
def ordinalSuffix (K : Int) : String :=
  if K = 11 ∨ K = 12 ∨ K = 13 then "th"
  else if K % 10 = 1 then "st"
  else if K % 10 = 2 then "nd"
  else if K % 10 = 3 then "rd"
  else "th"

/-- The label pieces printCentile writes for a centile in 1 .. 99: the label
with the ordinal suffix of the specification when a label is asked for. -/
def labelPieces (centile : Int) (label : Bool) : List String :=
  if label then [toString centile ++ ordinalSuffix centile ++ "-percentile: "] else []

/-! ## float64 arithmetic (Go's float64 is IEEE-754 binary64) -/

/-- A float64 value of the kind AverageComplexity can produce: the
non-negative number mantissa * 2^exponent, +Inf, or NaN. -/
inductive Float64 where
  | finite (mantissa : Nat) (exponent : Int)
  | posInf
  | nan
  deriving DecidableEq, Repr

/-- The rational number a finite float64 value stands for. -/
def Float64.value : Float64 → Option ℚ
  | .finite mantissa exponent => some ((mantissa : ℚ) * (2 : ℚ) ^ exponent)
  | .posInf => none
  | .nan => none

/-- Rounding of num / den to the nearest natural number, ties to the even
one (den > 0). -/
def Float64.roundHalfEven (num den : Nat) : Nat :=
  if 2 * (num % den) < den then num / den
  else if den < 2 * (num % den) then num / den + 1
  else if (num / den) % 2 = 0 then num / den
  else num / den + 1

/-- The position of the highest set bit of n (0 for n < 2), by halving; the
first argument bounds the number of halvings. -/
def Float64.log2 : Nat → Nat → Nat
  | 0, _ => 0
  | fuel + 1, n => if n < 2 then 0 else Float64.log2 fuel (n / 2) + 1

/-- The integer part of log2 (a / n), for positive a and n. -/
def Float64.floorLog2 (a n : Nat) : Int :=
  if n * 2 ^ ((Float64.log2 a a : Int) - (Float64.log2 n n : Int)).toNat ≤
      a * 2 ^ ((Float64.log2 n n : Int) - (Float64.log2 a a : Int)).toNat then
    (Float64.log2 a a : Int) - (Float64.log2 n n : Int)
  else (Float64.log2 a a : Int) - (Float64.log2 n n : Int) - 1

/-- The float64 nearest to a / n for positive a and n: 53 significant bits,
round to nearest, ties to even. The quotients met here lie between 2^-63 and
2^64, far inside the exponent range of float64, so there is neither overflow
nor a subnormal result. -/
def Float64.ofQuotient (a n : Nat) : Float64 :=
  let e : Int := Float64.floorLog2 a n - 52
  let m := Float64.roundHalfEven (a * 2 ^ (-e).toNat) (n * 2 ^ e.toNat)
  if m = 2 ^ 53 then .finite (2 ^ 52) (e + 1) else .finite m e

/-- Go's conversion float64(x) of a non-negative integer x (uint64 or int). -/
def Float64.ofNat (x : Nat) : Float64 :=
  if x = 0 then .finite 0 0 else Float64.ofQuotient x 1

/-- Go's division x / y of float64 values (IEEE-754): 0/0 is NaN, a positive
number divided by 0 is +Inf. -/
def Float64.div : Float64 → Float64 → Float64
  | .finite m₁ e₁, .finite m₂ e₂ =>
    if m₂ = 0 then (if m₁ = 0 then .nan else .posInf)
    else if m₁ = 0 then .finite 0 0
    else
      match Float64.ofQuotient m₁ m₂ with
      | .finite m e => .finite m (e + e₁ - e₂)
      | f => f
  | .finite _ _, .posInf => .finite 0 0
  | .posInf, .finite _ _ => .posInf
  | .posInf, .posInf => .nan
  | .nan, _ => .nan
  | _, .nan => .nan

/-- AverageComplexity calculates the average cyclomatic complexity of the
cyclomatic complexities in s: float64(s.TotalComplexity()) / float64(len(s)). -/
def Stats.AverageComplexity (s : Stats) : Float64 :=
  Float64.div (Float64.ofNat s.TotalComplexity) (Float64.ofNat s.length)

/-! # Proofs -/

/-! ## Basic facts about Swap -/

section Basics
open byComplexityDesc

theorem Swap_length (s : Stats) (i j : Nat) : (Swap s i j).length = s.length := by
  simp [Swap]

theorem at_Swap (s : Stats) {i j : Nat} (hi : i < s.length) (hj : j < s.length) (k : Nat) :
    (Swap s i j).at k = if k = j then s.at i else if k = i then s.at j else s.at k := by
  unfold Swap Stats.at
  simp only [List.getD_eq_getElem?_getD, List.getElem?_set, List.length_set]
  by_cases h1 : j = k
  · subst h1; simp [hj]
  · by_cases h2 : i = k
    · subst h2; simp [h1, hi, Ne.symm h1]
    · simp [h1, h2, Ne.symm h1, Ne.symm h2]

theorem key_Swap (s : Stats) {i j : Nat} (hi : i < s.length) (hj : j < s.length) (k : Nat) :
    (Swap s i j).key k = if k = j then s.key i else if k = i then s.key j else s.key k := by
  unfold Stats.key
  rw [at_Swap s hi hj]
  split_ifs <;> rfl

theorem at_eq_getElem (s : Stats) {i : Nat} (h : i < s.length) : s.at i = s[i] := by
  simp [Stats.at, h]

/-- Two lists of equal length with the same entry at every index are equal. -/
theorem ext_at {s t : Stats} (hl : s.length = t.length)
    (h : ∀ i, i < s.length → s.at i = t.at i) : s = t := by
  apply List.ext_getElem hl
  intro i h1 h2
  have := h i h1
  rwa [at_eq_getElem s h1, at_eq_getElem t h2] at this

theorem perm_cons_set_aux (x : Stat) :
    ∀ (t : Stats) (j : Nat), j < t.length → List.Perm (t.at j :: t.set j x) (x :: t)
  | [], j, h => by simp at h
  | y :: t, 0, _ => by
    simpa [Stats.at] using List.Perm.swap x y t
  | y :: t, j + 1, h => by
    have ih := perm_cons_set_aux x t j (by simpa using h)
    have h1 : Stats.at (y :: t) (j + 1) = Stats.at t j := by simp [Stats.at]
    rw [h1, List.set_cons_succ]
    exact ((List.Perm.swap y (Stats.at t j) (t.set j x)).trans (ih.cons y)).trans (List.Perm.swap x y t)

theorem Swap_perm : ∀ (s : Stats) (i j : Nat), i < s.length → j < s.length →
    List.Perm (Swap s i j) s
  | [], i, _, h, _ => by simp at h
  | x :: t, 0, 0, _, _ => by simp [Swap, Stats.at]
  | x :: t, 0, j + 1, _, hj => by
    have := perm_cons_set_aux x t j (by simpa using hj)
    simpa [Swap, Stats.at] using this
  | x :: t, i + 1, 0, hi, _ => by
    have := perm_cons_set_aux x t i (by simpa using hi)
    simpa [Swap, Stats.at] using this
  | x :: t, i + 1, j + 1, hi, hj => by
    have ih := Swap_perm t i j (by simpa using hi) (by simpa using hj)
    have : Swap (x :: t) (i + 1) (j + 1) = x :: Swap t i j := by
      simp [Swap, Stats.at]
    rw [this]
    exact ih.cons x

end Basics

section RearrLemmas
open byComplexityDesc

theorem Rearr.refl (a b : Nat) (s : Stats) : Rearr a b s s :=
  ⟨List.Perm.refl _, fun _ _ => rfl, fun i h1 h2 => ⟨i, h1, h2, rfl⟩⟩

theorem Rearr.length_eq {a b : Nat} {s t : Stats} (h : Rearr a b s t) : t.length = s.length :=
  h.perm.length_eq

theorem Rearr.trans {a b : Nat} {s t u : Stats} (h1 : Rearr a b s t) (h2 : Rearr a b t u) :
    Rearr a b s u := by
  refine ⟨h2.perm.trans h1.perm, fun i hi => (h2.frame i hi).trans (h1.frame i hi), ?_⟩
  intro i hi1 hi2
  obtain ⟨j, hj1, hj2, hj⟩ := h2.within i hi1 hi2
  obtain ⟨k, hk1, hk2, hk⟩ := h1.within j hj1 hj2
  exact ⟨k, hk1, hk2, hj.trans hk⟩

theorem Rearr.widen {a b c d : Nat} {s t : Stats} (h : Rearr a b s t) (hc : c ≤ a) (hd : b ≤ d) :
    Rearr c d s t := by
  refine ⟨h.perm, fun i hi => h.frame i (by omega), ?_⟩
  intro i hi1 hi2
  by_cases hin : a ≤ i ∧ i < b
  · obtain ⟨j, hj1, hj2, hj⟩ := h.within i hin.1 hin.2
    exact ⟨j, by omega, by omega, hj⟩
  · exact ⟨i, hi1, hi2, h.frame i (by omega)⟩

theorem Rearr.swap {a b : Nat} (s : Stats) {i j : Nat} (hai : a ≤ i) (hib : i < b)
    (haj : a ≤ j) (hjb : j < b) (hb : b ≤ s.length) : Rearr a b s (Swap s i j) := by
  have hi : i < s.length := by omega
  have hj : j < s.length := by omega
  refine ⟨Swap_perm s i j hi hj, ?_, ?_⟩
  · intro k hk
    rw [at_Swap s hi hj, if_neg (by omega), if_neg (by omega)]
  · intro k _ _
    rw [at_Swap s hi hj]
    split_ifs
    · exact ⟨i, hai, hib, rfl⟩
    · exact ⟨j, haj, hjb, rfl⟩
    · exact ⟨k, ‹_›, ‹_›, rfl⟩

theorem Rearr.key_frame {a b : Nat} {s t : Stats} (h : Rearr a b s t) {i : Nat}
    (hi : i < a ∨ b ≤ i) : t.key i = s.key i := by
  unfold Stats.key; rw [h.frame i hi]

theorem Rearr.key_within {a b : Nat} {s t : Stats} (h : Rearr a b s t) {i : Nat}
    (h1 : a ≤ i) (h2 : i < b) : ∃ j, a ≤ j ∧ j < b ∧ t.key i = s.key j := by
  obtain ⟨j, hj1, hj2, hj⟩ := h.within i h1 h2
  exact ⟨j, hj1, hj2, by unfold Stats.key; rw [hj]⟩

/-- A rearrangement inside one range leaves a disjoint range sorted. -/
theorem SortedOn.of_disjoint {a b c d : Nat} {s t : Stats} (h : Rearr a b s t)
    (hs : SortedOn s c d) (hd : d ≤ a ∨ b ≤ c) : SortedOn t c d := by
  intro i j h1 h2 h3
  rw [h.key_frame (i := i) (by omega), h.key_frame (i := j) (by omega)]
  exact hs i j h1 h2 h3

theorem SortedOn.narrow {a b c d : Nat} {s : Stats} (hs : SortedOn s a b) (hc : a ≤ c)
    (hd : d ≤ b) : SortedOn s c d :=
  fun i j h1 h2 h3 => hs i j (by omega) h2 (by omega)

theorem SortedOn.le {a b : Nat} {s : Stats} (hs : SortedOn s a b) {i j : Nat} (h1 : a ≤ i)
    (h2 : i ≤ j) (h3 : j < b) : s.key j ≤ s.key i := by
  rcases Nat.eq_or_lt_of_le h2 with h | h
  · subst h; exact le_refl _
  · exact hs i j h1 h h3

theorem SortedOn.of_small (s : Stats) {a b : Nat} (h : b ≤ a + 1) : SortedOn s a b :=
  fun i j h1 h2 h3 => by omega

end RearrLemmas

/-! ## insertionSort -/

section InsertionSort
open byComplexityDesc

theorem insertionSort_inner_spec (a i : Nat) : ∀ (j : Nat) (s : Stats), a ≤ j → j ≤ i →
    i < s.length → SortedOn s a j → SortedOn s j (i + 1) →
    (∀ p q, a ≤ p → p < j → j < q → q ≤ i → s.key q ≤ s.key p) →
    Rearr a (i + 1) s (sort.insertionSort.inner a j s) ∧
      SortedOn (sort.insertionSort.inner a j s) a (i + 1)
  | 0, s, _, _, _, _, h2, _ => by
    have ha : a = 0 := by omega
    subst ha
    exact ⟨Rearr.refl _ _ _, h2⟩
  | j + 1, s, haj, hji, hi, h1, h2, h3 => by
    unfold sort.insertionSort.inner
    by_cases hc : (decide (j + 1 > a) && Less s (j + 1) j) = true
    · rw [if_pos hc]
      simp only [Bool.and_eq_true, decide_eq_true_eq, Less] at hc
      obtain ⟨hgt, hless⟩ := hc
      have hjl : j < s.length := by omega
      have hj1l : j + 1 < s.length := by omega
      have hsw : Rearr a (i + 1) s (Swap s (j + 1) j) :=
        Rearr.swap s (by omega) (by omega) (by omega) (by omega) (by omega)
      have kj : (Swap s (j + 1) j).key j = s.key (j + 1) := by
        rw [key_Swap s hj1l hjl, if_pos rfl]
      have kj1 : (Swap s (j + 1) j).key (j + 1) = s.key j := by
        rw [key_Swap s hj1l hjl, if_neg (by omega), if_pos rfl]
      have ko : ∀ k, k ≠ j → k ≠ j + 1 → (Swap s (j + 1) j).key k = s.key k := by
        intro k hk1 hk2
        rw [key_Swap s hj1l hjl, if_neg hk1, if_neg hk2]
      have ih := insertionSort_inner_spec a i j (Swap s (j + 1) j) (by omega) (by omega)
        (by rw [Swap_length]; exact hi) ?_ ?_ ?_
      · exact ⟨hsw.trans ih.1, ih.2⟩
      · intro p q hp hpq hq
        rw [ko p (by omega) (by omega), ko q (by omega) (by omega)]
        exact h1 p q hp hpq (by omega)
      · intro p q hp hpq hq
        by_cases hpj : p = j
        · subst hpj
          by_cases hqj : q = p + 1
          · subst hqj
            rw [kj, kj1]; exact hless
          · rw [kj, ko q (by omega) hqj]
            exact h2 (p + 1) q (le_refl _) (by omega) hq
        · by_cases hpj1 : p = j + 1
          · subst hpj1
            rw [kj1, ko q (by omega) (by omega)]
            exact h3 j q (by omega) (by omega) (by omega) (by omega)
          · rw [ko p hpj hpj1, ko q (by omega) (by omega)]
            exact h2 p q (by omega) hpq hq
      · intro p q hp hpj hjq hqi
        rw [ko p (by omega) (by omega)]
        by_cases hqj : q = j + 1
        · subst hqj
          rw [kj1]
          exact h1 p j hp hpj (by omega)
        · rw [ko q (by omega) hqj]
          exact h3 p q hp (by omega) (by omega) hqi
    · rw [if_neg hc]
      refine ⟨Rearr.refl _ _ _, ?_⟩
      simp only [Bool.and_eq_true, decide_eq_true_eq, Less, not_and, not_le] at hc
      intro p q hp hpq hq
      by_cases hq1 : q < j + 1
      · exact h1 p q hp hpq hq1
      · by_cases hp1 : j + 1 ≤ p
        · exact h2 p q hp1 hpq hq
        · have hgt : j + 1 > a := by omega
          have hlt := hc hgt
          have hjp : s.key j ≤ s.key p := SortedOn.le h1 hp (by omega) (by omega)
          by_cases hq2 : q = j + 1
          · subst hq2; omega
          · have := h3 p q hp (by omega) (by omega) (by omega)
            exact this

theorem insertionSort_outer_spec (a b : Nat) : ∀ (fuel i : Nat) (s : Stats), a < i →
    b ≤ fuel + i → b ≤ s.length → SortedOn s a i →
    Rearr a b s (sort.insertionSort.outer a b fuel i s) ∧
      SortedOn (sort.insertionSort.outer a b fuel i s) a b
  | 0, i, s, _, hf, _, hs => by
    unfold sort.insertionSort.outer
    exact ⟨Rearr.refl _ _ _, hs.narrow (le_refl _) (by omega)⟩
  | fuel + 1, i, s, hai, hf, hb, hs => by
    unfold sort.insertionSort.outer
    by_cases hib : i < b
    · rw [if_pos hib]
      have hin := insertionSort_inner_spec a i i s (by omega) (le_refl _) (by omega) hs
        (SortedOn.of_small s (by omega)) (fun p q _ _ _ _ => by omega)
      have ih := insertionSort_outer_spec a b fuel (i + 1) (sort.insertionSort.inner a i s)
        (by omega) (by omega) (by rw [hin.1.length_eq]; exact hb) hin.2
      exact ⟨(hin.1.widen (le_refl _) (by omega)).trans ih.1, ih.2⟩
    · rw [if_neg hib]
      exact ⟨Rearr.refl _ _ _, hs.narrow (le_refl _) (by omega)⟩

/-- insertionSort sorts data[a:b] and touches nothing else. -/
theorem insertionSort_spec (s : Stats) (a b : Nat) (hb : b ≤ s.length) :
    Rearr a b s (sort.insertionSort s a b) ∧ SortedOn (sort.insertionSort s a b) a b := by
  unfold sort.insertionSort
  by_cases hab : a < b
  · exact insertionSort_outer_spec a b (b - a) (a + 1) s (by omega) (by omega) hb
      (SortedOn.of_small s (le_refl _))
  · have h0 : b - a = 0 := by omega
    rw [h0]
    unfold sort.insertionSort.outer
    exact ⟨Rearr.refl _ _ _, SortedOn.of_small s (by omega)⟩

end InsertionSort

/-! ## swapRange and rotate -/

section Rotate
open byComplexityDesc

theorem swapRange_loop_spec (a b n : Nat) (hab : a + n ≤ b) : ∀ (fuel i : Nat) (s : Stats),
    n ≤ fuel + i → b + n ≤ s.length →
    Rearr a (b + n) s (sort.swapRange.loop a b n fuel i s) ∧
    ∀ k, (sort.swapRange.loop a b n fuel i s).at k =
      if a + i ≤ k ∧ k < a + n then s.at (k - a + b)
      else if b + i ≤ k ∧ k < b + n then s.at (k - b + a) else s.at k
  | 0, i, s, hf, _ => by
    unfold sort.swapRange.loop
    refine ⟨Rearr.refl _ _ _, fun k => ?_⟩
    rw [if_neg (by omega), if_neg (by omega)]
  | fuel + 1, i, s, hf, hl => by
    unfold sort.swapRange.loop
    by_cases hin : i < n
    · rw [if_pos hin]
      have h1 : a + i < s.length := by omega
      have h2 : b + i < s.length := by omega
      have hsw : Rearr a (b + n) s (Swap s (a + i) (b + i)) :=
        Rearr.swap s (by omega) (by omega) (by omega) (by omega) hl
      have ih := swapRange_loop_spec a b n hab fuel (i + 1) (Swap s (a + i) (b + i))
        (by omega) (by rw [Swap_length]; exact hl)
      refine ⟨hsw.trans ih.1, fun k => ?_⟩
      rw [ih.2 k]
      by_cases c1 : a + (i + 1) ≤ k ∧ k < a + n
      · rw [if_pos c1, if_pos (by omega), at_Swap s h1 h2, if_neg (by omega), if_neg (by omega)]
      · rw [if_neg c1]
        by_cases c2 : b + (i + 1) ≤ k ∧ k < b + n
        · rw [if_pos c2, if_neg (by omega), if_pos (by omega), at_Swap s h1 h2,
            if_neg (by omega), if_neg (by omega)]
        · rw [if_neg c2, at_Swap s h1 h2]
          by_cases c3 : k = b + i
          · rw [if_pos c3, if_neg (by omega), if_pos (by omega)]
            congr 1; omega
          · rw [if_neg c3]
            by_cases c4 : k = a + i
            · rw [if_pos c4, if_pos (by omega)]
              congr 1; omega
            · rw [if_neg c4, if_neg (by omega), if_neg (by omega)]
    · rw [if_neg hin]
      refine ⟨Rearr.refl _ _ _, fun k => ?_⟩
      rw [if_neg (by omega), if_neg (by omega)]

/-- swapRange exchanges the blocks data[a:a+n] and data[b:b+n]. -/
theorem swapRange_spec (s : Stats) (a b n : Nat) (hab : a + n ≤ b) (hl : b + n ≤ s.length) :
    Rearr a (b + n) s (sort.swapRange s a b n) ∧
    ∀ k, (sort.swapRange s a b n).at k =
      if a ≤ k ∧ k < a + n then s.at (k - a + b)
      else if b ≤ k ∧ k < b + n then s.at (k - b + a) else s.at k := by
  have h := swapRange_loop_spec a b n hab n 0 s (by omega) hl
  exact ⟨h.1, fun k => by rw [sort.swapRange, h.2 k]; simp only [Nat.add_zero]⟩

theorem rotate_loop_spec (m : Nat) : ∀ (fuel i j : Nat) (s : Stats), 1 ≤ i → 1 ≤ j → i ≤ m →
    m + j ≤ s.length → i + j ≤ fuel + 1 →
    Rearr (m - i) (m + j) s
      (sort.swapRange (sort.rotate.loop m fuel i j s).2
        (m - (sort.rotate.loop m fuel i j s).1) m (sort.rotate.loop m fuel i j s).1) ∧
    ∀ k, (sort.swapRange (sort.rotate.loop m fuel i j s).2
        (m - (sort.rotate.loop m fuel i j s).1) m (sort.rotate.loop m fuel i j s).1).at k =
      if m - i ≤ k ∧ k < m - i + j then s.at (k + i)
      else if m - i + j ≤ k ∧ k < m + j then s.at (k - j) else s.at k
  | 0, i, j, s, hi, hj, _, _, hf => by omega
  | fuel + 1, i, j, s, hi, hj, him, hl, hf => by
    unfold sort.rotate.loop
    by_cases hij : i ≠ j
    · rw [if_pos hij]
      by_cases hgt : i > j
      · rw [if_pos hgt]
        have h1 := swapRange_spec s (m - i) m j (by omega) hl
        have ih := rotate_loop_spec m fuel (i - j) j (sort.swapRange s (m - i) m j)
          (by omega) hj (by omega) (by rw [h1.1.length_eq]; exact hl) (by omega)
        refine ⟨(h1.1.widen (le_refl _) (le_refl _)).trans (ih.1.widen (by omega) (le_refl _)),
          fun k => ?_⟩
        rw [ih.2 k]
        by_cases c1 : m - i ≤ k ∧ k < m - i + j
        · rw [if_pos c1, if_neg (by omega), if_neg (by omega), h1.2 k, if_pos c1]
          congr 1; omega
        · rw [if_neg c1]
          by_cases c2 : m - i + j ≤ k ∧ k < m + j
          · rw [if_pos c2]
            by_cases c3 : k < m - i + j + j
            · rw [if_pos (by omega), h1.2, if_neg (by omega), if_pos (by omega)]
              congr 1; omega
            · rw [if_neg (by omega), if_pos (by omega), h1.2, if_neg (by omega),
                if_neg (by omega)]
          · rw [if_neg c2, if_neg (by omega), if_neg (by omega), h1.2, if_neg (by omega),
              if_neg (by omega)]
      · rw [if_neg hgt]
        have hlt : i < j := by omega
        have h1 := swapRange_spec s (m - i) (m + j - i) i (by omega) (by omega)
        have ih := rotate_loop_spec m fuel i (j - i) (sort.swapRange s (m - i) (m + j - i) i)
          hi (by omega) him (by rw [h1.1.length_eq]; omega) (by omega)
        refine ⟨(h1.1.widen (le_refl _) (by omega)).trans (ih.1.widen (le_refl _) (by omega)),
          fun k => ?_⟩
        rw [ih.2 k]
        by_cases c1 : m - i ≤ k ∧ k < m - i + j
        · rw [if_pos c1]
          by_cases c3 : k < m - i + (j - i)
          · rw [if_pos (by omega), h1.2, if_neg (by omega), if_neg (by omega)]
          · rw [if_neg (by omega), if_pos (by omega), h1.2, if_pos (by omega)]
            congr 1; omega
        · rw [if_neg c1]
          by_cases c2 : m - i + j ≤ k ∧ k < m + j
          · rw [if_pos c2, if_neg (by omega), if_neg (by omega), h1.2, if_neg (by omega),
              if_pos (by omega)]
            congr 1; omega
          · rw [if_neg c2, if_neg (by omega), if_neg (by omega), h1.2, if_neg (by omega),
              if_neg (by omega)]
    · rw [if_neg hij]
      have hij2 : i = j := by omega
      subst hij2
      have h1 := swapRange_spec s (m - i) m i (by omega) hl
      refine ⟨h1.1, fun k => ?_⟩
      show (sort.swapRange s (m - i) m i).at k = _
      rw [h1.2 k]
      by_cases c1 : m - i ≤ k ∧ k < m - i + i
      · rw [if_pos c1, if_pos c1]
        congr 1; omega
      · rw [if_neg c1, if_neg c1]
        by_cases c2 : m ≤ k ∧ k < m + i
        · rw [if_pos c2, if_pos (by omega)]
          congr 1; omega
        · rw [if_neg c2, if_neg (by omega)]

/-- rotate turns data of the form x u v y, with u = data[a:m] and v = data[m:b],
into x v u y. -/
theorem rotate_spec (s : Stats) (a m b : Nat) (ham : a < m) (hmb : m < b) (hl : b ≤ s.length) :
    Rearr a b s (sort.rotate s a m b) ∧
    ∀ k, (sort.rotate s a m b).at k =
      if a ≤ k ∧ k < a + (b - m) then s.at (k + (m - a))
      else if a + (b - m) ≤ k ∧ k < b then s.at (k - (b - m)) else s.at k := by
  have h := rotate_loop_spec m ((m - a) + (b - m)) (m - a) (b - m) s (by omega) (by omega)
    (by omega) (by omega) (by omega)
  have e1 : m - (m - a) = a := by omega
  have e2 : m + (b - m) = b := by omega
  rw [e1, e2] at h
  exact h

end Rotate

/-! ## symMerge: the binary searches and the shifting loops -/

section SymMergeParts
open byComplexityDesc

theorem searchA_spec (s : Stats) (a : Nat) : ∀ (fuel i j : Nat), i ≤ j → j - i ≤ fuel →
    i ≤ sort.symMerge.searchA s a fuel i j ∧ sort.symMerge.searchA s a fuel i j ≤ j ∧
    (sort.symMerge.searchA s a fuel i j = i ∨
      s.key a ≤ s.key (sort.symMerge.searchA s a fuel i j - 1)) ∧
    (sort.symMerge.searchA s a fuel i j = j ∨
      s.key (sort.symMerge.searchA s a fuel i j) < s.key a)
  | 0, i, j, hij, hf => by
    unfold sort.symMerge.searchA
    exact ⟨le_refl _, hij, Or.inl rfl, Or.inl (by omega)⟩
  | fuel + 1, i, j, hij, hf => by
    unfold sort.symMerge.searchA
    by_cases hlt : i < j
    · rw [if_pos hlt]
      simp only []
      by_cases hp : Less s ((i + j) / 2) a = true
      · rw [if_pos hp]
        have ih := searchA_spec s a fuel ((i + j) / 2 + 1) j (by omega) (by omega)
        obtain ⟨h1, h2, h3, h4⟩ := ih
        refine ⟨by omega, h2, Or.inr ?_, h4⟩
        rcases h3 with h3 | h3
        · rw [h3]
          simpa [Less] using hp
        · exact h3
      · rw [if_neg hp]
        have ih := searchA_spec s a fuel i ((i + j) / 2) (by omega) (by omega)
        obtain ⟨h1, h2, h3, h4⟩ := ih
        refine ⟨h1, by omega, h3, Or.inr ?_⟩
        rcases h4 with h4 | h4
        · rw [h4]
          simpa [Less] using hp
        · exact h4
    · rw [if_neg hlt]
      exact ⟨le_refl _, hij, Or.inl rfl, Or.inl (by omega)⟩

theorem searchB_spec (s : Stats) (m : Nat) : ∀ (fuel i j : Nat), i ≤ j → j - i ≤ fuel →
    i ≤ sort.symMerge.searchB s m fuel i j ∧ sort.symMerge.searchB s m fuel i j ≤ j ∧
    (sort.symMerge.searchB s m fuel i j = i ∨
      s.key m < s.key (sort.symMerge.searchB s m fuel i j - 1)) ∧
    (sort.symMerge.searchB s m fuel i j = j ∨
      s.key (sort.symMerge.searchB s m fuel i j) ≤ s.key m)
  | 0, i, j, hij, hf => by
    unfold sort.symMerge.searchB
    exact ⟨le_refl _, hij, Or.inl rfl, Or.inl (by omega)⟩
  | fuel + 1, i, j, hij, hf => by
    unfold sort.symMerge.searchB
    by_cases hlt : i < j
    · rw [if_pos hlt]
      simp only []
      by_cases hp : (!Less s m ((i + j) / 2)) = true
      · rw [if_pos hp]
        have ih := searchB_spec s m fuel ((i + j) / 2 + 1) j (by omega) (by omega)
        obtain ⟨h1, h2, h3, h4⟩ := ih
        refine ⟨by omega, h2, Or.inr ?_, h4⟩
        rcases h3 with h3 | h3
        · rw [h3]
          simpa [Less] using hp
        · exact h3
      · rw [if_neg hp]
        have ih := searchB_spec s m fuel i ((i + j) / 2) (by omega) (by omega)
        obtain ⟨h1, h2, h3, h4⟩ := ih
        refine ⟨h1, by omega, h3, Or.inr ?_⟩
        rcases h4 with h4 | h4
        · rw [h4]
          simpa [Less] using hp
        · exact h4
    · rw [if_neg hlt]
      exact ⟨le_refl _, hij, Or.inl rfl, Or.inl (by omega)⟩

theorem searchC_spec (s : Stats) (p : Nat) : ∀ (fuel i j : Nat), i ≤ j → j - i ≤ fuel →
    i ≤ sort.symMerge.searchC s p fuel i j ∧ sort.symMerge.searchC s p fuel i j ≤ j ∧
    (sort.symMerge.searchC s p fuel i j = i ∨
      s.key (p - (sort.symMerge.searchC s p fuel i j - 1)) <
        s.key (sort.symMerge.searchC s p fuel i j - 1)) ∧
    (sort.symMerge.searchC s p fuel i j = j ∨
      s.key (sort.symMerge.searchC s p fuel i j) ≤
        s.key (p - sort.symMerge.searchC s p fuel i j))
  | 0, i, j, hij, hf => by
    unfold sort.symMerge.searchC
    exact ⟨le_refl _, hij, Or.inl rfl, Or.inl (by omega)⟩
  | fuel + 1, i, j, hij, hf => by
    unfold sort.symMerge.searchC
    by_cases hlt : i < j
    · rw [if_pos hlt]
      simp only []
      by_cases hp : (!Less s (p - (i + j) / 2) ((i + j) / 2)) = true
      · rw [if_pos hp]
        have ih := searchC_spec s p fuel ((i + j) / 2 + 1) j (by omega) (by omega)
        obtain ⟨h1, h2, h3, h4⟩ := ih
        refine ⟨by omega, h2, Or.inr ?_, h4⟩
        rcases h3 with h3 | h3
        · rw [h3]
          simpa [Less] using hp
        · exact h3
      · rw [if_neg hp]
        have ih := searchC_spec s p fuel i ((i + j) / 2) (by omega) (by omega)
        obtain ⟨h1, h2, h3, h4⟩ := ih
        refine ⟨h1, by omega, h3, Or.inr ?_⟩
        rcases h4 with h4 | h4
        · rw [h4]
          simpa [Less] using hp
        · exact h4
    · rw [if_neg hlt]
      exact ⟨le_refl _, hij, Or.inl rfl, Or.inl (by omega)⟩

theorem shiftUp_spec (e : Nat) : ∀ (fuel k : Nat) (s : Stats), k ≤ e → e - k ≤ fuel →
    e < s.length →
    Rearr k (e + 1) s (sort.symMerge.shiftUp e fuel k s) ∧
    ∀ x, (sort.symMerge.shiftUp e fuel k s).at x =
      if k ≤ x ∧ x < e then s.at (x + 1) else if x = e then s.at k else s.at x
  | 0, k, s, hk, hf, _ => by
    unfold sort.symMerge.shiftUp
    have : k = e := by omega
    subst this
    refine ⟨Rearr.refl _ _ _, fun x => ?_⟩
    rw [if_neg (by omega)]
    split_ifs with h
    · rw [h]
    · rfl
  | fuel + 1, k, s, hk, hf, hl => by
    unfold sort.symMerge.shiftUp
    by_cases hlt : k < e
    · rw [if_pos hlt]
      have h1 : k < s.length := by omega
      have h2 : k + 1 < s.length := by omega
      have hsw : Rearr k (e + 1) s (Swap s k (k + 1)) :=
        Rearr.swap s (le_refl _) (by omega) (by omega) (by omega) (by omega)
      have ih := shiftUp_spec e fuel (k + 1) (Swap s k (k + 1)) (by omega) (by omega)
        (by rw [Swap_length]; exact hl)
      refine ⟨hsw.trans (ih.1.widen (by omega) (le_refl _)), fun x => ?_⟩
      rw [ih.2 x]
      by_cases c1 : k + 1 ≤ x ∧ x < e
      · rw [if_pos c1, if_pos (by omega), at_Swap s h1 h2, if_neg (by omega), if_neg (by omega)]
      · rw [if_neg c1]
        by_cases c2 : x = e
        · rw [if_pos c2, if_neg (by omega), if_pos c2, at_Swap s h1 h2, if_pos rfl]
        · rw [if_neg c2, at_Swap s h1 h2]
          by_cases c3 : x = k
          · rw [if_neg (by omega), if_pos c3, if_pos (by omega), c3]
          · rw [if_neg (by omega), if_neg c3, if_neg (by omega), if_neg c2]
    · rw [if_neg hlt]
      have : k = e := by omega
      subst this
      refine ⟨Rearr.refl _ _ _, fun x => ?_⟩
      rw [if_neg (by omega)]
      split_ifs with h
      · rw [h]
      · rfl

theorem shiftDown_spec (i : Nat) : ∀ (k : Nat) (s : Stats), i ≤ k → k < s.length →
    Rearr i (k + 1) s (sort.symMerge.shiftDown i k s) ∧
    ∀ x, (sort.symMerge.shiftDown i k s).at x =
      if x = i then s.at k else if i < x ∧ x ≤ k then s.at (x - 1) else s.at x
  | 0, s, hk, _ => by
    unfold sort.symMerge.shiftDown
    have : i = 0 := by omega
    subst this
    refine ⟨Rearr.refl _ _ _, fun x => ?_⟩
    split_ifs with h1 h2
    · rw [h1]
    · omega
    · rfl
  | k + 1, s, hk, hl => by
    unfold sort.symMerge.shiftDown
    by_cases hgt : k + 1 > i
    · rw [if_pos hgt]
      have h1 : k < s.length := by omega
      have hsw : Rearr i (k + 1 + 1) s (Swap s (k + 1) k) :=
        Rearr.swap s (by omega) (by omega) (by omega) (by omega) (by omega)
      have ih := shiftDown_spec i k (Swap s (k + 1) k) (by omega)
        (by rw [Swap_length]; exact h1)
      refine ⟨hsw.trans (ih.1.widen (le_refl _) (by omega)), fun x => ?_⟩
      rw [ih.2 x]
      by_cases c1 : x = i
      · rw [if_pos c1, if_pos c1, at_Swap s hl h1, if_pos rfl]
      · rw [if_neg c1, if_neg c1]
        by_cases c2 : i < x ∧ x ≤ k
        · rw [if_pos c2, if_pos (by omega), at_Swap s hl h1, if_neg (by omega),
            if_neg (by omega)]
        · rw [if_neg c2, at_Swap s hl h1]
          by_cases c3 : x = k + 1
          · rw [if_neg (by omega), if_pos c3, if_pos (by omega)]
            congr 1; omega
          · rw [if_neg (by omega), if_neg c3, if_neg (by omega)]
    · rw [if_neg hgt]
      have : i = k + 1 := by omega
      subst this
      refine ⟨Rearr.refl _ _ _, fun x => ?_⟩
      split_ifs with h1 h2
      · rw [h1]
      · omega
      · rfl

end SymMergeParts

/-! ## symMerge -/

section SymMerge
open byComplexityDesc

/-- The first special case of symMerge (data[a:m] has one element). -/
theorem symMerge_caseA (s : Stats) (a m b : Nat) (ham : m - a = 1) (hmb : m < b)
    (hl : b ≤ s.length) (hs : SortedOn s m b) :
    Rearr a b s (sort.symMerge.shiftUp (sort.symMerge.searchA s a (b - m) m b - 1)
      (sort.symMerge.searchA s a (b - m) m b - 1 - a) a s) ∧
    SortedOn (sort.symMerge.shiftUp (sort.symMerge.searchA s a (b - m) m b - 1)
      (sort.symMerge.searchA s a (b - m) m b - 1 - a) a s) a b := by
  obtain ⟨h1, h2, h3, h4⟩ := searchA_spec s a (b - m) m b (by omega) (le_refl _)
  generalize sort.symMerge.searchA s a (b - m) m b = r at h1 h2 h3 h4 ⊢
  have hsh := shiftUp_spec (r - 1) (r - 1 - a) a s (by omega) (le_refl _) (by omega)
  generalize sort.symMerge.shiftUp (r - 1) (r - 1 - a) a s = t at hsh ⊢
  have F1 : ∀ h, m ≤ h → h < r → s.key a ≤ s.key h := by
    intro h hh1 hh2
    rcases h3 with h3 | h3
    · omega
    · exact le_trans h3 (SortedOn.le hs hh1 (by omega) (by omega))
  have F2 : ∀ h, r ≤ h → h < b → s.key h ≤ s.key a := by
    intro h hh1 hh2
    rcases h4 with h4 | h4
    · omega
    · exact le_trans (SortedOn.le hs (by omega) hh1 hh2) (le_of_lt h4)
  have hk : ∀ x, t.key x =
      if a ≤ x ∧ x < r - 1 then s.key (x + 1) else if x = r - 1 then s.key a else s.key x := by
    intro x
    unfold Stats.key
    rw [hsh.2 x]
    split_ifs <;> rfl
  refine ⟨hsh.1.widen (le_refl _) (by omega), ?_⟩
  intro p q hp hpq hq
  rw [hk p, hk q]
  split_ifs <;>
    first
    | omega
    | exact hs _ _ (by omega) (by omega) (by omega)
    | exact F1 _ (by omega) (by omega)
    | exact F2 _ (by omega) (by omega)

/-- The second special case of symMerge (data[m:b] has one element). -/
theorem symMerge_caseB (s : Stats) (a m b : Nat) (ham : a < m) (hmb : b - m = 1)
    (hl : b ≤ s.length) (hs : SortedOn s a m) :
    Rearr a b s (sort.symMerge.shiftDown (sort.symMerge.searchB s m (m - a) a m) m s) ∧
    SortedOn (sort.symMerge.shiftDown (sort.symMerge.searchB s m (m - a) a m) m s) a b := by
  obtain ⟨h1, h2, h3, h4⟩ := searchB_spec s m (m - a) a m (by omega) (le_refl _)
  generalize sort.symMerge.searchB s m (m - a) a m = r at h1 h2 h3 h4 ⊢
  have hsh := shiftDown_spec r m s h2 (by omega)
  generalize sort.symMerge.shiftDown r m s = t at hsh ⊢
  have F1 : ∀ h, a ≤ h → h < r → s.key m ≤ s.key h := by
    intro h hh1 hh2
    rcases h3 with h3 | h3
    · omega
    · exact le_trans (le_of_lt h3) (SortedOn.le hs hh1 (by omega) (by omega))
  have F2 : ∀ h, r ≤ h → h < m → s.key h ≤ s.key m := by
    intro h hh1 hh2
    rcases h4 with h4 | h4
    · omega
    · exact le_trans (SortedOn.le hs (by omega) hh1 hh2) h4
  have hk : ∀ x, t.key x =
      if x = r then s.key m else if r < x ∧ x ≤ m then s.key (x - 1) else s.key x := by
    intro x
    unfold Stats.key
    rw [hsh.2 x]
    split_ifs <;> rfl
  refine ⟨hsh.1.widen (by omega) (by omega), ?_⟩
  intro p q hp hpq hq
  rw [hk p, hk q]
  split_ifs <;>
    first
    | omega
    | exact hs _ _ (by omega) (by omega) (by omega)
    | exact F1 _ (by omega) (by omega)
    | exact F2 _ (by omega) (by omega)

/-- The rotation step of symMerge's general case, whether or not rotate is
called: the blocks data[x:m] and data[m:e] change places. -/
theorem symMerge_rotate_step (s : Stats) (x m e : Nat) (hxm : x ≤ m) (hme : m ≤ e)
    (hl : e ≤ s.length) :
    Rearr x e s (if x < m ∧ m < e then sort.rotate s x m e else s) ∧
    ∀ k, (if x < m ∧ m < e then sort.rotate s x m e else s).at k =
      if x ≤ k ∧ k < x + (e - m) then s.at (k + (m - x))
      else if x + (e - m) ≤ k ∧ k < e then s.at (k - (e - m)) else s.at k := by
  by_cases h : x < m ∧ m < e
  · rw [if_pos h]
    exact rotate_spec s x m e h.1 h.2 hl
  · rw [if_neg h]
    refine ⟨Rearr.refl _ _ _, fun k => ?_⟩
    split_ifs
    · congr 1; omega
    · congr 1; omega
    · rfl

end SymMerge

section SymMergeMain
open byComplexityDesc

/-- After the rotation step of symMerge's general case, with x the index found
by the binary search and e = mid + m - x: the four pieces are sorted and no
entry of data[mid:b] has a larger Complexity than an entry of data[a:mid]. -/
theorem symMerge_split (s : Stats) (a m b x mid e : Nat) (hax : a ≤ x) (hxm : x ≤ m)
    (hme : m ≤ e) (heb : e ≤ b) (he : e + x = mid + m)
    (hl : b ≤ s.length) (hsL : SortedOn s a m) (hsR : SortedOn s m b)
    (hP : x = a ∨ e = b ∨ s.key e < s.key (x - 1))
    (hQ : x = m ∨ x = mid ∨ s.key x ≤ s.key (e - 1)) :
    Rearr a b s (if x < m ∧ m < e then sort.rotate s x m e else s) ∧
    SortedOn (if x < m ∧ m < e then sort.rotate s x m e else s) a x ∧
    SortedOn (if x < m ∧ m < e then sort.rotate s x m e else s) x mid ∧
    SortedOn (if x < m ∧ m < e then sort.rotate s x m e else s) mid e ∧
    SortedOn (if x < m ∧ m < e then sort.rotate s x m e else s) e b ∧
    ∀ p q, a ≤ p → p < mid → mid ≤ q → q < b →
      (if x < m ∧ m < e then sort.rotate s x m e else s).key q ≤
        (if x < m ∧ m < e then sort.rotate s x m e else s).key p := by
  have hst := symMerge_rotate_step s x m e hxm hme (by omega)
  generalize (if x < m ∧ m < e then sort.rotate s x m e else s) = t at hst ⊢
  have hk : ∀ k, t.key k =
      if x ≤ k ∧ k < mid then s.key (k + (m - x))
      else if mid ≤ k ∧ k < e then s.key (k - (e - m)) else s.key k := by
    intro k
    unfold Stats.key
    rw [hst.2 k]
    have e1 : x + (e - m) = mid := by omega
    rw [e1]
    split_ifs <;> rfl
  have G1 : ∀ p q, a ≤ p → p < x → e ≤ q → q < b → s.key q ≤ s.key p := by
    intro p q h1 h2 h3 h4
    rcases hP with hP | hP | hP
    · omega
    · omega
    · exact le_trans (SortedOn.le hsR hme h3 h4)
        (le_trans (le_of_lt hP) (SortedOn.le hsL h1 (by omega) (by omega)))
  have G2 : ∀ p q, m ≤ p → p < e → x ≤ q → q < m → s.key q ≤ s.key p := by
    intro p q h1 h2 h3 h4
    rcases hQ with hQ | hQ | hQ
    · omega
    · omega
    · exact le_trans (SortedOn.le hsL hax h3 h4)
        (le_trans hQ (SortedOn.le hsR h1 (by omega) (by omega)))
  refine ⟨hst.1.widen hax heb, ?_, ?_, ?_, ?_, ?_⟩
  · intro p q hp hpq hq
    rw [hk p, hk q]
    split_ifs <;>
      first
      | omega
      | exact hsL _ _ (by omega) (by omega) (by omega)
  · intro p q hp hpq hq
    rw [hk p, hk q]
    split_ifs <;>
      first
      | omega
      | exact hsR _ _ (by omega) (by omega) (by omega)
  · intro p q hp hpq hq
    rw [hk p, hk q]
    split_ifs <;>
      first
      | omega
      | exact hsL _ _ (by omega) (by omega) (by omega)
  · intro p q hp hpq hq
    rw [hk p, hk q]
    split_ifs <;>
      first
      | omega
      | exact hsR _ _ (by omega) (by omega) (by omega)
  · intro p q hp1 hp2 hq1 hq2
    rw [hk p, hk q]
    split_ifs <;>
      first
      | omega
      | exact hsL _ _ (by omega) (by omega) (by omega)
      | exact hsR _ _ (by omega) (by omega) (by omega)
      | exact G1 _ _ (by omega) (by omega) (by omega) (by omega)
      | exact G2 _ _ (by omega) (by omega) (by omega) (by omega)

/-- Two sorted neighbouring pieces, the left one dominating the right one,
form one sorted piece. -/
theorem SortedOn.glue {s : Stats} {a c b : Nat} (h1 : SortedOn s a c) (h2 : SortedOn s c b)
    (h3 : ∀ p q, a ≤ p → p < c → c ≤ q → q < b → s.key q ≤ s.key p) : SortedOn s a b := by
  intro i j hi hij hj
  by_cases hjc : j < c
  · exact h1 i j hi hij hjc
  · by_cases hic : c ≤ i
    · exact h2 i j hic hij hj
    · exact h3 i j hi (by omega) (by omega) hj

/-- A rearrangement inside data[a:c] or inside data[c:b] keeps the left piece
dominating the right piece. -/
theorem dominates_of_rearr {s t : Stats} {a c b lo hi : Nat} (h : Rearr lo hi s t)
    (hr : (a ≤ lo ∧ hi ≤ c) ∨ (c ≤ lo ∧ hi ≤ b))
    (h3 : ∀ p q, a ≤ p → p < c → c ≤ q → q < b → s.key q ≤ s.key p) :
    ∀ p q, a ≤ p → p < c → c ≤ q → q < b → t.key q ≤ t.key p := by
  intro p q hp1 hp2 hq1 hq2
  have hp : ∃ p1, a ≤ p1 ∧ p1 < c ∧ t.key p = s.key p1 := by
    by_cases hin : lo ≤ p ∧ p < hi
    · obtain ⟨j, hj1, hj2, hj⟩ := h.key_within hin.1 hin.2
      exact ⟨j, by omega, by omega, hj⟩
    · exact ⟨p, hp1, hp2, h.key_frame (by omega)⟩
  have hq : ∃ q1, c ≤ q1 ∧ q1 < b ∧ t.key q = s.key q1 := by
    by_cases hin : lo ≤ q ∧ q < hi
    · obtain ⟨j, hj1, hj2, hj⟩ := h.key_within hin.1 hin.2
      exact ⟨j, by omega, by omega, hj⟩
    · exact ⟨q, hq1, hq2, h.key_frame (by omega)⟩
  obtain ⟨p1, hp1a, hp1b, hp1c⟩ := hp
  obtain ⟨q1, hq1a, hq1b, hq1c⟩ := hq
  rw [hp1c, hq1c]
  exact h3 p1 q1 hp1a hp1b hq1a hq1b

end SymMergeMain

section SymMergeInduction
open byComplexityDesc

/-- One unfolding of symMerge's recursion. -/
theorem symMerge_go_succ (fuel : Nat) (s : Stats) (a m b : Nat) :
    sort.symMerge.go (fuel + 1) s a m b =
    if m - a = 1 then
      sort.symMerge.shiftUp (sort.symMerge.searchA s a (b - m) m b - 1)
        (sort.symMerge.searchA s a (b - m) m b - 1 - a) a s
    else if b - m = 1 then
      sort.symMerge.shiftDown (sort.symMerge.searchB s m (m - a) a m) m s
    else
      let mid := (a + b) / 2
      let n := mid + m
      let start₀ := if m > mid then n - b else a
      let r := if m > mid then mid else m
      let p := n - 1
      let start := sort.symMerge.searchC s p (r - start₀) start₀ r
      let end_ := n - start
      let s₁ := if start < m ∧ m < end_ then sort.rotate s start m end_ else s
      let s₂ := if a < start ∧ start < mid then sort.symMerge.go fuel s₁ a start mid else s₁
      if mid < end_ ∧ end_ < b then sort.symMerge.go fuel s₂ mid end_ b else s₂ := rfl

/-- The general case of symMerge, given that the two recursive calls meet
their specification. -/
theorem symMerge_general (fuel : Nat)
    (ih : ∀ (s : Stats) (a m b : Nat), a < m → m < b →
      b ≤ s.length → b - a ≤ fuel → SortedOn s a m → SortedOn s m b →
      Rearr a b s (sort.symMerge.go fuel s a m b) ∧
        SortedOn (sort.symMerge.go fuel s a m b) a b)
    (s : Stats) (a m b : Nat) (ham : a < m) (hmb : m < b) (hl : b ≤ s.length)
    (hf : b - a ≤ fuel + 1) (hsL : SortedOn s a m) (hsR : SortedOn s m b)
    (hA : ¬ m - a = 1) (hB : ¬ b - m = 1)
    (mid n start₀ r p start e : Nat) (s₁ s₂ s₃ : Stats)
    (hmid : mid = (a + b) / 2) (hn : n = mid + m)
    (hstart₀ : start₀ = if m > mid then n - b else a)
    (hr : r = if m > mid then mid else m) (hp : p = n - 1)
    (hstart : start = sort.symMerge.searchC s p (r - start₀) start₀ r)
    (he : e = n - start)
    (hs₁ : s₁ = if start < m ∧ m < e then sort.rotate s start m e else s)
    (hs₂ : s₂ = if a < start ∧ start < mid then sort.symMerge.go fuel s₁ a start mid else s₁)
    (hs₃ : s₃ = if mid < e ∧ e < b then sort.symMerge.go fuel s₂ mid e b else s₂) :
    Rearr a b s s₃ ∧ SortedOn s₃ a b := by
  have hr0 : start₀ ≤ r ∧ a ≤ start₀ ∧ r ≤ m ∧ r ≤ mid ∧ mid + m ≤ start₀ + b ∧
      (start₀ = a ∨ start₀ + b = n) ∧ (r = m ∨ r = mid) := by
    rw [hstart₀, hr]
    split_ifs <;> omega
  obtain ⟨f1, f2, f3, f4, f5, f6, f7⟩ := hr0
  clear hstart₀ hr
  obtain ⟨q1, q2, q3, q4⟩ := searchC_spec s p (r - start₀) start₀ r f1 (le_refl _)
  rw [← hstart] at q1 q2 q3 q4
  clear hstart
  have hP : start = a ∨ e = b ∨ s.key e < s.key (start - 1) := by
    by_cases c : start = start₀
    · rcases f6 with h | h
      · left; omega
      · right; left; omega
    · right; right
      rcases q3 with q3 | q3
      · exact absurd q3 c
      · have e1 : p - (start - 1) = e := by omega
        rw [e1] at q3
        exact q3
  have hQ : start = m ∨ start = mid ∨ s.key start ≤ s.key (e - 1) := by
    by_cases c : start = r
    · rcases f7 with h | h
      · left; omega
      · right; left; omega
    · right; right
      rcases q4 with q4 | q4
      · exact absurd q4 c
      · have e1 : p - start = e - 1 := by omega
        rw [e1] at q4
        exact q4
  clear q3 q4
  have hsp := symMerge_split s a m b start mid e (by omega) (by omega) (by omega)
    (by omega) (by omega) hl hsL hsR hP hQ
  rw [← hs₁] at hsp
  obtain ⟨r1, t1, t2, t3, t4, d1⟩ := hsp
  have hl1 : b ≤ s₁.length := by rw [r1.length_eq]; exact hl
  have R2 : Rearr a mid s₁ s₂ ∧ SortedOn s₂ a mid := by
    by_cases c1 : a < start ∧ start < mid
    · rw [hs₂, if_pos c1]
      exact ih s₁ a start mid c1.1 c1.2 (by omega) (by omega) t1 t2
    · rw [hs₂, if_neg c1]
      refine ⟨Rearr.refl _ _ _, ?_⟩
      by_cases c : start = a
      · exact t2.narrow (by omega) (le_refl _)
      · exact t1.narrow (le_refl _) (by omega)
  have hl2 : b ≤ s₂.length := by rw [R2.1.length_eq]; exact hl1
  have u3 : SortedOn s₂ mid e := SortedOn.of_disjoint R2.1 t3 (Or.inr (le_refl _))
  have u4 : SortedOn s₂ e b := SortedOn.of_disjoint R2.1 t4 (Or.inr (by omega))
  have d2 := dominates_of_rearr (a := a) (c := mid) (b := b) R2.1
    (Or.inl ⟨le_refl _, le_refl _⟩) d1
  have R3 : Rearr mid b s₂ s₃ ∧ SortedOn s₃ mid b := by
    by_cases c2 : mid < e ∧ e < b
    · rw [hs₃, if_pos c2]
      exact ih s₂ mid e b c2.1 c2.2 hl2 (by omega) u3 u4
    · rw [hs₃, if_neg c2]
      refine ⟨Rearr.refl _ _ _, ?_⟩
      by_cases c : e = b
      · exact u3.narrow (le_refl _) (by omega)
      · exact u4.narrow (by omega) (le_refl _)
  have d3 := dominates_of_rearr (a := a) (c := mid) (b := b) R3.1
    (Or.inr ⟨le_refl _, le_refl _⟩) d2
  refine ⟨(r1.trans (R2.1.widen (le_refl _) (by omega))).trans
    (R3.1.widen (by omega) (le_refl _)), ?_⟩
  exact SortedOn.glue (SortedOn.of_disjoint R3.1 R2.2 (Or.inl (le_refl _))) R3.2 d3

theorem symMerge_go_spec (fuel : Nat) : ∀ (s : Stats) (a m b : Nat), a < m → m < b →
    b ≤ s.length → b - a ≤ fuel → SortedOn s a m → SortedOn s m b →
    Rearr a b s (sort.symMerge.go fuel s a m b) ∧
      SortedOn (sort.symMerge.go fuel s a m b) a b := by
  induction fuel with
  | zero =>
    intro s a m b ham hmb _ hf _ _
    omega
  | succ fuel ih =>
    intro s a m b ham hmb hl hf hsL hsR
    rw [symMerge_go_succ]
    by_cases hA : m - a = 1
    · rw [if_pos hA]
      exact symMerge_caseA s a m b hA hmb hl hsR
    · rw [if_neg hA]
      by_cases hB : b - m = 1
      · rw [if_pos hB]
        exact symMerge_caseB s a m b ham hB hl hsL
      · rw [if_neg hB]
        exact symMerge_general fuel ih s a m b ham hmb hl hf hsL hsR hA hB
          _ _ _ _ _ _ _ _ _ _ rfl rfl rfl rfl rfl rfl rfl rfl rfl rfl

/-- symMerge merges the sorted pieces data[a:m] and data[m:b] into one sorted
piece data[a:b] and touches nothing else. -/
theorem symMerge_spec (s : Stats) (a m b : Nat) (ham : a < m) (hmb : m < b)
    (hl : b ≤ s.length) (hsL : SortedOn s a m) (hsR : SortedOn s m b) :
    Rearr a b s (sort.symMerge s a m b) ∧ SortedOn (sort.symMerge s a m b) a b :=
  symMerge_go_spec (b - a) s a m b ham hmb hl (le_refl _) hsL hsR

end SymMergeInduction

/-! ## stable -/

section StableProof

theorem dvd_step {d x a : Nat} (hx : d ∣ x) (ha : d ∣ a) (h : x < a) : x + d ≤ a := by
  obtain ⟨k, rfl⟩ := hx
  obtain ⟨l, rfl⟩ := ha
  have hd : 0 < d := by
    rcases Nat.eq_zero_or_pos d with h0 | h0
    · subst h0; simp at h
    · exact h0
  have hkl : k < l := lt_of_mul_lt_mul_left h (Nat.zero_le d)
  calc d * k + d = d * (k + 1) := by ring
    _ ≤ d * l := Nat.mul_le_mul_left d hkl

theorem blocks_spec (n B : Nat) (hB : 1 ≤ B) (fuel : Nat) : ∀ (a : Nat) (s : Stats), B ∣ a →
    a ≤ n → n ≤ s.length → n < a + B + fuel →
    (∀ x, B ∣ x → x < a → SortedOn s x (x + B)) →
    ∃ a1 t, sort.stable.blocks n B fuel a (a + B) s = (a1, t) ∧ B ∣ a1 ∧ a1 ≤ n ∧
      n < a1 + B ∧ Rearr 0 n s t ∧ ∀ x, B ∣ x → x < a1 → SortedOn t x (x + B) := by
  induction fuel with
  | zero =>
    intro a s hd han _ hf hs
    exact ⟨a, s, rfl, hd, han, by omega, Rearr.refl _ _ _, hs⟩
  | succ fuel ih =>
    intro a s hd han hl hf hs
    unfold sort.stable.blocks
    by_cases hb : a + B ≤ n
    · rw [if_pos hb]
      have hins := insertionSort_spec s a (a + B) (by omega)
      obtain ⟨a1, t, e1, e2, e3, e4, e5, e6⟩ := ih (a + B) (sort.insertionSort s a (a + B))
        (Dvd.dvd.add hd (dvd_refl B)) hb (by rw [hins.1.length_eq]; exact hl) (by omega) (by
          intro x hx hxa
          by_cases hlt : x < a
          · have := dvd_step hx hd hlt
            exact SortedOn.of_disjoint hins.1 (hs x hx hlt) (Or.inl this)
          · have hxa2 : x = a := by
              by_contra hne
              have := dvd_step hd hx (by omega)
              omega
            subst hxa2
            exact hins.2)
      exact ⟨a1, t, e1, e2, e3, e4, (hins.1.widen (Nat.zero_le _) hb).trans e5, e6⟩
    · rw [if_neg hb]
      exact ⟨a, s, rfl, hd, han, by omega, Rearr.refl _ _ _, hs⟩

/-- All blocks data[x : min(x+B, n)] with x a multiple of B are sorted. -/
theorem blocksSorted_of_blocks {n B : Nat} {s t : Stats} {a : Nat} (hd : B ∣ a)
    (han : a ≤ n) (hn : n < a + B) (hr : Rearr a n s t) (hsorted : SortedOn t a n)
    (hs : ∀ x, B ∣ x → x < a → SortedOn s x (x + B)) : BlocksSorted t B n := by
  intro x hx
  by_cases hlt : x < a
  · have := dvd_step hx hd hlt
    exact (SortedOn.of_disjoint hr (hs x hx hlt) (Or.inl this)).narrow (le_refl _)
      (Nat.min_le_left _ _)
  · by_cases hxa : x = a
    · subst hxa
      exact hsorted.narrow (le_refl _) (Nat.min_le_right _ _)
    · have := dvd_step hd hx (by omega)
      intro i j hi hij hj
      have : j < n := lt_of_lt_of_le hj (Nat.min_le_right _ _)
      omega

theorem mergePass_spec (n B : Nat) (hB : 1 ≤ B) (fuel : Nat) : ∀ (a : Nat) (s : Stats),
    2 * B ∣ a → a ≤ n → n ≤ s.length → n < a + 2 * B + fuel →
    (∀ x, 2 * B ∣ x → x < a → SortedOn s x (x + 2 * B)) →
    (∀ x, B ∣ x → a ≤ x → SortedOn s x (min (x + B) n)) →
    ∃ a1 t, sort.stable.mergePass n B fuel a (a + 2 * B) s = (a1, t) ∧ 2 * B ∣ a1 ∧ a1 ≤ n ∧
      n < a1 + 2 * B ∧ Rearr 0 n s t ∧
      (∀ x, 2 * B ∣ x → x < a1 → SortedOn t x (x + 2 * B)) ∧
      (∀ x, B ∣ x → a1 ≤ x → SortedOn t x (min (x + B) n)) := by
  induction fuel with
  | zero =>
    intro a s hd han _ hf hs1 hs2
    exact ⟨a, s, rfl, hd, han, by omega, Rearr.refl _ _ _, hs1, hs2⟩
  | succ fuel ih =>
    intro a s hd han hl hf hs1 hs2
    unfold sort.stable.mergePass
    have hdB : B ∣ a := Dvd.dvd.trans (Dvd.intro_left 2 rfl) hd
    by_cases hb : a + 2 * B ≤ n
    · rw [if_pos hb]
      have hL : SortedOn s a (a + B) := by
        have := hs2 a hdB (le_refl _)
        rwa [Nat.min_eq_left (by omega)] at this
      have hR : SortedOn s (a + B) (a + 2 * B) := by
        have := hs2 (a + B) (Dvd.dvd.add hdB (dvd_refl B)) (by omega)
        rw [Nat.min_eq_left (by omega)] at this
        exact this.narrow (le_refl _) (by omega)
      have hm := symMerge_spec s a (a + B) (a + 2 * B) (by omega) (by omega) (by omega) hL hR
      obtain ⟨a1, t, e1, e2, e3, e4, e5, e6, e7⟩ := ih (a + 2 * B)
        (sort.symMerge s a (a + B) (a + 2 * B))
        (Dvd.dvd.add hd (dvd_refl _)) hb (by rw [hm.1.length_eq]; exact hl) (by omega) (by
          intro x hx hxa
          by_cases hlt : x < a
          · have := dvd_step hx hd hlt
            exact SortedOn.of_disjoint hm.1 (hs1 x hx hlt) (Or.inl this)
          · have hxa2 : x = a := by
              by_contra hne
              have := dvd_step hd hx (by omega)
              omega
            subst hxa2
            exact hm.2) (by
          intro x hx hxa
          exact SortedOn.of_disjoint hm.1 (hs2 x hx (by omega)) (Or.inr hxa))
      exact ⟨a1, t, e1, e2, e3, e4, (hm.1.widen (Nat.zero_le _) hb).trans e5, e6, e7⟩
    · rw [if_neg hb]
      exact ⟨a, s, rfl, hd, han, by omega, Rearr.refl _ _ _, hs1, hs2⟩

theorem mergeLoop_spec (n : Nat) (fuel : Nat) : ∀ (B : Nat) (s : Stats), 1 ≤ B →
    n ≤ s.length → n ≤ B + fuel → BlocksSorted s B n →
    Rearr 0 n s (sort.stable.mergeLoop n fuel B s) ∧
      SortedOn (sort.stable.mergeLoop n fuel B s) 0 n := by
  induction fuel with
  | zero =>
    intro B s _ _ hf hs
    unfold sort.stable.mergeLoop
    refine ⟨Rearr.refl _ _ _, ?_⟩
    have := hs 0 (dvd_zero B)
    rwa [Nat.zero_add, Nat.min_eq_right (by omega)] at this
  | succ fuel ih =>
    intro B s hB hl hf hs
    unfold sort.stable.mergeLoop
    by_cases hlt : B < n
    · rw [if_pos hlt]
      obtain ⟨a1, t, e1, e2, e3, e4, e5, e6, e7⟩ := mergePass_spec n B hB n 0 s (dvd_zero _)
        (Nat.zero_le _) hl (by omega) (fun x _ hx => absurd hx (Nat.not_lt_zero x))
        (fun x hx _ => hs x hx)
      rw [Nat.zero_add] at e1
      simp only [e1]
      have hl1 : n ≤ t.length := by rw [e5.length_eq]; exact hl
      have hdB : B ∣ a1 := Dvd.dvd.trans (Dvd.intro_left 2 rfl) e2
      have key : ∃ u, (if a1 + B < n then sort.symMerge t a1 (a1 + B) n else t) = u ∧
          Rearr a1 n t u ∧ SortedOn u a1 n := by
        by_cases c : a1 + B < n
        · rw [if_pos c]
          have hL : SortedOn t a1 (a1 + B) := by
            have := e7 a1 hdB (le_refl _)
            rwa [Nat.min_eq_left (by omega)] at this
          have hR : SortedOn t (a1 + B) n := by
            have := e7 (a1 + B) (Dvd.dvd.add hdB (dvd_refl B)) (by omega)
            rwa [Nat.min_eq_right (by omega)] at this
          exact ⟨_, rfl, symMerge_spec t a1 (a1 + B) n (by omega) c hl1 hL hR⟩
        · rw [if_neg c]
          refine ⟨_, rfl, Rearr.refl _ _ _, ?_⟩
          have := e7 a1 hdB (le_refl _)
          rwa [Nat.min_eq_right (by omega)] at this
      obtain ⟨u, hu1, hu2, hu3⟩ := key
      rw [hu1]
      have hbs : BlocksSorted u (B * 2) n := by
        rw [Nat.mul_comm]
        exact blocksSorted_of_blocks e2 e3 e4 hu2 hu3 e6
      have := ih (B * 2) u (by omega) (by rw [hu2.length_eq]; exact hl1) (by omega) hbs
      exact ⟨(e5.trans (hu2.widen (Nat.zero_le _) (le_refl _))).trans this.1, this.2⟩
    · rw [if_neg hlt]
      refine ⟨Rearr.refl _ _ _, ?_⟩
      have := hs 0 (dvd_zero B)
      rwa [Nat.zero_add, Nat.min_eq_right (by omega)] at this

/-- Go's stable sort, driven by byComplexityDesc, returns a permutation of its
input whose Complexity values are non-increasing. -/
theorem stable_spec (s : Stats) (n : Nat) (hn : n ≤ s.length) :
    Rearr 0 n s (sort.stable s n) ∧ SortedOn (sort.stable s n) 0 n := by
  unfold sort.stable
  obtain ⟨a1, t, e1, e2, e3, e4, e5, e6⟩ := blocks_spec n 20 (by omega) n 0 s (dvd_zero _)
    (Nat.zero_le _) hn (by omega) (fun x _ hx => absurd hx (Nat.not_lt_zero x))
  rw [Nat.zero_add] at e1
  simp only [e1]
  have hl1 : n ≤ t.length := by rw [e5.length_eq]; exact hn
  have hins := insertionSort_spec t a1 n hl1
  have hbs : BlocksSorted (sort.insertionSort t a1 n) 20 n :=
    blocksSorted_of_blocks e2 e3 e4 hins.1 hins.2 e6
  have := mergeLoop_spec n n 20 (sort.insertionSort t a1 n) (by omega)
    (by rw [hins.1.length_eq]; exact hl1) (by omega) hbs
  exact ⟨(e5.trans (hins.1.widen (Nat.zero_le _) (le_refl _))).trans this.1, this.2⟩

theorem Stable_perm (s : Stats) : List.Perm (sort.Stable s) s :=
  (stable_spec s s.length (le_refl _)).1.perm

theorem Stable_length (s : Stats) : (sort.Stable s).length = s.length :=
  (Stable_perm s).length_eq

theorem Stable_sortedOn (s : Stats) : SortedOn (sort.Stable s) 0 (sort.Stable s).length := by
  rw [Stable_length]
  exact (stable_spec s s.length (le_refl _)).2

end StableProof

/-! ## SortAndFilter -/

section SortAndFilterProof

theorem descending_iff_sortedOn (s : Stats) : Descending s ↔ SortedOn s 0 s.length := by
  unfold Descending SortedOn
  rw [List.pairwise_iff_getElem]
  constructor
  · intro h i j _ hij hj
    have := h i j (by omega) hj hij
    unfold Stats.key
    rw [at_eq_getElem s (i := i) (by omega), at_eq_getElem s hj]
    exact this
  · intro h i j hi hj hij
    have := h i j (Nat.zero_le _) hij hj
    unfold Stats.key at this
    rw [at_eq_getElem s hi, at_eq_getElem s hj] at this
    exact this

theorem Stable_descending (s : Stats) : Descending (sort.Stable s) :=
  (descending_iff_sortedOn _).2 (Stable_sortedOn s)

theorem take_takeWhile_length (p : Stat → Bool) : ∀ (l : Stats),
    l.take (l.takeWhile p).length = l.takeWhile p
  | [] => rfl
  | x :: l => by
    by_cases h : p x = true
    · rw [List.takeWhile_cons_of_pos h, List.length_cons, List.take_succ_cons,
        take_takeWhile_length p l]
    · rw [List.takeWhile_cons_of_neg h, List.length_nil, List.take_zero]

theorem SortAndFilter_loop_eq (top over : Int) (result : Stats) : ∀ (rest pre : Stats),
    result = pre ++ rest →
    Stats.SortAndFilter.loop top over result pre.length rest =
      if (pre.length : Int) ≤ top then
        result.take (min top.toNat (pre.length + (rest.takeWhile (isOver over)).length))
      else result.take (pre.length + (rest.takeWhile (isOver over)).length)
  | [], pre, h => by
    unfold Stats.SortAndFilter.loop
    have hl : result.length = pre.length := by rw [h]; simp
    simp only [List.takeWhile_nil, List.length_nil, Nat.add_zero]
    split_ifs with c
    · rw [List.take_of_length_le]
      rw [hl]; omega
    · rw [← hl, List.take_length]
  | x :: rest, pre, h => by
    unfold Stats.SortAndFilter.loop
    by_cases c1 : (pre.length : Int) = top
    · rw [if_pos c1, if_pos (le_of_eq c1)]
      congr 1
      omega
    · rw [if_neg c1]
      by_cases c2 : x.Complexity ≤ over
      · rw [if_pos c2]
        have hx : ¬ isOver over x = true := by simp [isOver, c2]
        rw [List.takeWhile_cons_of_neg hx]
        simp only [List.length_nil, Nat.add_zero]
        split_ifs with c
        · congr 1; omega
        · rfl
      · rw [if_neg c2]
        have hx : isOver over x = true := by simp [isOver]; omega
        rw [List.takeWhile_cons_of_pos hx]
        have ih := SortAndFilter_loop_eq top over result rest (pre ++ [x]) (by rw [h]; simp)
        simp only [List.length_append, List.length_cons, List.length_nil, Nat.zero_add] at ih ⊢
        rw [ih]
        split_ifs with d1 d2 d2
        · congr 1; omega
        · omega
        · omega
        · congr 1; omega

/-- SortAndFilter keeps the longest prefix of the sorted copy whose entries all
have Complexity > over, cut to top entries when top is not negative. -/
theorem SortAndFilter_eq (s : Stats) (top over : Int) :
    s.SortAndFilter top over =
      if 0 ≤ top then ((sort.Stable s).takeWhile (isOver over)).take top.toNat
      else (sort.Stable s).takeWhile (isOver over) := by
  unfold Stats.SortAndFilter
  have h := SortAndFilter_loop_eq top over (sort.Stable s) (sort.Stable s) [] rfl
  simp only [List.length_nil, Nat.zero_add, Nat.cast_zero] at h
  rw [h]
  split_ifs
  · rw [← List.take_take, take_takeWhile_length]
  · rw [take_takeWhile_length]

theorem takeWhile_eq_filter_of_descending (over : Int) : ∀ (l : Stats), Descending l →
    l.takeWhile (isOver over) = l.filter (isOver over)
  | [], _ => rfl
  | x :: l, h => by
    have h2 := List.pairwise_cons.1 h
    by_cases hx : isOver over x = true
    · rw [List.takeWhile_cons_of_pos hx, List.filter_cons_of_pos hx,
        takeWhile_eq_filter_of_descending over l h2.2]
    · rw [List.takeWhile_cons_of_neg hx, List.filter_cons_of_neg hx]
      symm
      rw [List.filter_eq_nil_iff]
      intro y hy
      have := h2.1 y hy
      simp only [isOver, decide_eq_true_eq, not_lt] at hx ⊢
      omega

/-- Without a top limit, SortAndFilter is the sorted copy filtered by
Complexity > over. -/
theorem SortAndFilter_neg_top (s : Stats) (top over : Int) (htop : top < 0) :
    s.SortAndFilter top over = (sort.Stable s).filter (isOver over) := by
  rw [SortAndFilter_eq, if_neg (by omega),
    takeWhile_eq_filter_of_descending over _ (Stable_descending s)]

theorem SortAndFilter_nonneg_top (s : Stats) (top over : Int) (htop : 0 ≤ top) :
    s.SortAndFilter top over = ((sort.Stable s).filter (isOver over)).take top.toNat := by
  rw [SortAndFilter_eq, if_pos htop,
    takeWhile_eq_filter_of_descending over _ (Stable_descending s)]

theorem descending_filter {l : Stats} (h : Descending l) (p : Stat → Bool) :
    Descending (l.filter p) :=
  List.Pairwise.sublist (List.filter_sublist l) h

theorem descending_take {l : Stats} (h : Descending l) (n : Nat) : Descending (l.take n) :=
  List.Pairwise.sublist (List.take_sublist n l) h

end SortAndFilterProof

/-! ## The claims about SortAndFilter -/

section SortAndFilterClaims

/-- C1: for every Stats s whose Complexity values are all at least 1, every
top < 0 and every over <= 0, SortAndFilter(top, over) is a permutation of s
(same entries, same multiplicities, same length) whose Complexity values are
non-increasing from first to last; the complexities 1, 4, 2, 3 with top = -1 and
over = 0 give 4, 3, 2, 1. -/
theorem C1_sortAndFilter_sorted_permutation (s : Stats) (top over : Int)
    (hs : ∀ x ∈ s, 1 ≤ x.Complexity) (htop : top < 0) (hover : over ≤ 0) :
    List.Perm (s.SortAndFilter top over) s ∧
    (s.SortAndFilter top over).length = s.length ∧
    Descending (s.SortAndFilter top over) ∧
    (Stats.ofComplexities [1, 4, 2, 3]).SortAndFilter (-1) 0 =
      Stats.ofComplexities [4, 3, 2, 1] := by
  have hall : (sort.Stable s).filter (isOver over) = sort.Stable s := by
    rw [List.filter_eq_self]
    intro x hx
    have := hs x ((Stable_perm s).mem_iff.1 hx)
    simp only [isOver, decide_eq_true_eq]
    omega
  have heq : s.SortAndFilter top over = sort.Stable s := by
    rw [SortAndFilter_neg_top s top over htop, hall]
  rw [heq]
  exact ⟨Stable_perm s, Stable_length s, Stable_descending s, by decide⟩

theorem C1_sortAndFilter_sorted_permutation_witness :
    (∀ x ∈ Stats.ofComplexities [3, 1, 2], 1 ≤ x.Complexity) ∧ (-1 : Int) < 0 ∧
    (0 : Int) ≤ 0 ∧
    List.Perm ((Stats.ofComplexities [3, 1, 2]).SortAndFilter (-1) 0)
      (Stats.ofComplexities [3, 1, 2]) ∧
    Descending ((Stats.ofComplexities [3, 1, 2]).SortAndFilter (-1) 0) :=
  ⟨by decide, by decide, by decide,
    (C1_sortAndFilter_sorted_permutation (Stats.ofComplexities [3, 1, 2]) (-1) 0
      (by decide) (by decide) (by decide)).1,
    (C1_sortAndFilter_sorted_permutation (Stats.ofComplexities [3, 1, 2]) (-1) 0
      (by decide) (by decide) (by decide)).2.2.1⟩

/-- C2, the code at the failing input: the two entries f and g of exampleTie
have the same Complexity and f comes first, yet SortAndFilter(-1, 0) returns g
before f, because byComplexityDesc.Less answers true for equal complexities and
insertionSort swaps them. -/
theorem C2_equal_entries_are_swapped :
    exampleTie.map Stat.FuncName = ["f", "g"] ∧
    exampleTie.map Stat.Complexity = [1, 1] ∧
    (exampleTie.SortAndFilter (-1) 0).map Stat.FuncName = ["g", "f"] := by
  decide

/-- C3: for every Stats s, every top < 0 and every over, SortAndFilter(top, over)
holds exactly the entries of s whose Complexity is strictly greater than over,
each as often as it occurs in s, and no entry with Complexity <= over, in
non-increasing order of Complexity; the complexities 1, 2, 4, 4, 5 with top = -1
and over = 3 give 5, 4, 4. -/
theorem C3_sortAndFilter_over (s : Stats) (top over : Int) (htop : top < 0) :
    List.Perm (s.SortAndFilter top over) (s.filter (fun x => decide (over < x.Complexity))) ∧
    (∀ x, x ∈ s.SortAndFilter top over ↔ x ∈ s ∧ over < x.Complexity) ∧
    Descending (s.SortAndFilter top over) ∧
    (Stats.ofComplexities [1, 2, 4, 4, 5]).SortAndFilter (-1) 3 =
      Stats.ofComplexities [5, 4, 4] := by
  rw [SortAndFilter_neg_top s top over htop]
  have hp : List.Perm ((sort.Stable s).filter (isOver over)) (s.filter (isOver over)) :=
    (Stable_perm s).filter _
  refine ⟨hp, ?_, descending_filter (Stable_descending s) _, by decide⟩
  intro x
  rw [hp.mem_iff, List.mem_filter]
  simp [isOver]

theorem C3_sortAndFilter_over_witness :
    (-1 : Int) < 0 ∧
    List.Perm ((Stats.ofComplexities [2, 7, 5]).SortAndFilter (-1) 4)
      ((Stats.ofComplexities [2, 7, 5]).filter (fun x => decide ((4 : Int) < x.Complexity))) :=
  ⟨by decide, (C3_sortAndFilter_over (Stats.ofComplexities [2, 7, 5]) (-1) 4 (by decide)).1⟩

/-- C4: for every Stats s, every top >= 0 and every over, SortAndFilter(top, over)
is the prefix of SortAndFilter(-1, over) of length min(top, m), where m is the
number of entries of s with Complexity > over; it has at most top entries, each
with Complexity > over, and the entries of s that are left out (rest) have no
Complexity greater than that of a returned entry; the complexities
1, 2, 3, 4, 5 with top = 2 and over = 2 give 5, 4. -/
theorem C4_sortAndFilter_top (s : Stats) (top over : Int) (htop : 0 ≤ top) :
    s.SortAndFilter top over =
      (s.SortAndFilter (-1) over).take
        (min top.toNat (s.filter (fun x => decide (over < x.Complexity))).length) ∧
    ((s.SortAndFilter top over).length : Int) ≤ top ∧
    (∀ x ∈ s.SortAndFilter top over, over < x.Complexity) ∧
    (∃ rest, List.Perm (s.SortAndFilter top over ++ rest) s ∧
      ∀ y ∈ rest, ∀ x ∈ s.SortAndFilter top over, y.Complexity ≤ x.Complexity) ∧
    (Stats.ofComplexities [1, 2, 3, 4, 5]).SortAndFilter 2 2 =
      Stats.ofComplexities [5, 4] := by
  have hm : (s.filter (isOver over)).length = ((sort.Stable s).filter (isOver over)).length :=
    ((Stable_perm s).filter _).length_eq.symm
  have hdesc := Stable_descending s
  have htw := takeWhile_eq_filter_of_descending over _ hdesc
  have hpre : s.SortAndFilter top over =
      (sort.Stable s).take (min top.toNat ((sort.Stable s).filter (isOver over)).length) := by
    rw [SortAndFilter_nonneg_top s top over htop, ← htw, ← List.take_take,
      take_takeWhile_length]
  refine ⟨?_, ?_, ?_, ?_, by decide⟩
  · rw [SortAndFilter_nonneg_top s top over htop, SortAndFilter_neg_top s (-1) over (by omega)]
    show _ = List.take (min top.toNat (s.filter (isOver over)).length) _
    rw [hm, ← List.take_take, List.take_length]
  · rw [SortAndFilter_nonneg_top s top over htop, List.length_take]
    have : (min top.toNat ((sort.Stable s).filter (isOver over)).length : Nat) ≤ top.toNat :=
      Nat.min_le_left _ _
    omega
  · intro x hx
    rw [SortAndFilter_nonneg_top s top over htop] at hx
    have := List.mem_filter.1 (List.mem_of_mem_take hx)
    simpa [isOver] using this.2
  · refine ⟨(sort.Stable s).drop
      (min top.toNat ((sort.Stable s).filter (isOver over)).length), ?_, ?_⟩
    · rw [hpre, List.take_append_drop]
      exact Stable_perm s
    · intro y hy x hx
      rw [hpre] at hx
      have hsplit := List.take_append_drop
        (min top.toNat ((sort.Stable s).filter (isOver over)).length) (sort.Stable s)
      have hd : Descending (sort.Stable s) := hdesc
      unfold Descending at hd
      rw [← hsplit, List.pairwise_append] at hd
      exact hd.2.2 x hx y hy

theorem C4_sortAndFilter_top_witness :
    (0 : Int) ≤ 1 ∧
    (Stats.ofComplexities [2, 7, 5]).SortAndFilter 1 0 =
      ((Stats.ofComplexities [2, 7, 5]).SortAndFilter (-1) 0).take
        (min (1 : Int).toNat
          ((Stats.ofComplexities [2, 7, 5]).filter
            (fun x => decide ((0 : Int) < x.Complexity))).length) :=
  ⟨by decide, (C4_sortAndFilter_top (Stats.ofComplexities [2, 7, 5]) 1 0 (by decide)).1⟩

/-- C5, the code at the failing input: applied to exampleTie, SortAndFilter(-1, 0)
returns g, f, and applied to that result it returns f, g again, so a second
application changes the sequence of records. -/
theorem C5_second_application_differs :
    (exampleTie.SortAndFilter (-1) 0).map Stat.FuncName = ["g", "f"] ∧
    ((exampleTie.SortAndFilter (-1) 0).SortAndFilter (-1) 0).map Stat.FuncName = ["f", "g"] ∧
    (exampleTie.SortAndFilter (-1) 0).SortAndFilter (-1) 0 ≠
      exampleTie.SortAndFilter (-1) 0 := by
  decide

end SortAndFilterClaims

/-! ## Percentile -/

section PercentileProof

theorem sliceIsSorted_loop_iff (less : Nat → Nat → Bool) : ∀ (i : Nat),
    sort.SliceIsSorted.loop less i = true ↔ ∀ j, j < i → less (j + 1) j = false
  | 0 => by
    unfold sort.SliceIsSorted.loop
    simp
  | i + 1 => by
    unfold sort.SliceIsSorted.loop
    by_cases h : less (i + 1) i = true
    · rw [if_pos h]
      constructor
      · intro hf; exact absurd hf (by simp)
      · intro hall
        have := hall i (Nat.lt_succ_self i)
        rw [h] at this
        exact absurd this (by simp)
    · rw [if_neg h, sliceIsSorted_loop_iff less i]
      constructor
      · intro hall j hj
        by_cases hji : j = i
        · subst hji; simpa using h
        · exact hall j (by omega)
      · intro hall j hj
        exact hall j (by omega)

theorem sortedOn_of_adjacent (s : Stats) (n : Nat)
    (h : ∀ j, j + 1 < n → s.key (j + 1) ≤ s.key j) : SortedOn s 0 n := by
  intro i j _ hij hj
  obtain ⟨d, rfl⟩ : ∃ d, j = i + 1 + d := ⟨j - (i + 1), by omega⟩
  clear hij
  induction d with
  | zero => exact h i hj
  | succ d ih =>
    have h1 := ih (by omega)
    have h2 := h (i + 1 + d) hj
    exact le_trans h2 h1

/-- The check at the head of Percentile succeeds exactly on the sequences whose
Complexity values are non-increasing. -/
theorem sliceIsSorted_iff (s : Stats) :
    sort.SliceIsSorted s.length (fun i j => decide (s.key i > s.key j)) = true ↔
      Descending s := by
  unfold sort.SliceIsSorted
  rw [sliceIsSorted_loop_iff, descending_iff_sortedOn]
  constructor
  · intro h
    apply sortedOn_of_adjacent
    intro j hj
    have := h j (by omega)
    simpa using this
  · intro h j hj
    have := h j (j + 1) (Nat.zero_le _) (Nat.lt_succ_self j) (by omega)
    simpa using this

theorem Percentile_unsorted (s : Stats) (k : Int) (h : ¬ Descending s) :
    s.Percentile k =
      .returns (-1, some "stats needs to be sorted before calculating k-th percentile") := by
  unfold Stats.Percentile
  have hc : sort.SliceIsSorted s.length (fun i j => decide (s.key i > s.key j)) = false := by
    rw [← Bool.not_eq_true, sliceIsSorted_iff]
    exact h
  rw [hc]
  rfl

theorem Percentile_bad_k (s : Stats) (k : Int) (h : Descending s) (hk : k < 1 ∨ k > 99) :
    s.Percentile k = .returns (-1, some "k needs to be [1,99]") := by
  unfold Stats.Percentile
  have hc : sort.SliceIsSorted s.length (fun i j => decide (s.key i > s.key j)) = true :=
    (sliceIsSorted_iff s).2 h
  rw [hc]
  have hk2 : (decide (k < 1) || decide (k > 99)) = true := by
    simpa using hk
  simp only [Bool.not_true, Bool.false_eq_true, if_false, hk2, if_true]

theorem Percentile_good (s : Stats) (k : Int) (h : Descending s) (hk1 : 1 ≤ k)
    (hk2 : k ≤ 99) :
    s.Percentile k =
      match s[(max 0 ((100 - k) * (s.length : Int) / 100 - 1)).toNat]? with
      | some stat => .returns (stat.Complexity, none)
      | none => .indexOutOfRange (max 0 ((100 - k) * (s.length : Int) / 100 - 1)) s.length := by
  unfold Stats.Percentile
  have hc : sort.SliceIsSorted s.length (fun i j => decide (s.key i > s.key j)) = true :=
    (sliceIsSorted_iff s).2 h
  rw [hc]
  have hkf : (decide (k < 1) || decide (k > 99)) = false := by
    simp only [Bool.or_eq_false_iff, decide_eq_false_iff_not]
    omega
  simp only [Bool.not_true, Bool.false_eq_true, if_false, hkf]
  have hnn : 0 ≤ (100 - k) * (s.length : Int) :=
    Int.mul_nonneg (by omega) (Int.ofNat_nonneg _)
  rw [Int.tdiv_eq_ediv hnn (by omega)]
  have hloc : (if (100 - k) * (s.length : Int) / 100 - 1 < 0 then (0 : Int)
      else (100 - k) * (s.length : Int) / 100 - 1) =
      max 0 ((100 - k) * (s.length : Int) / 100 - 1) := by
    split_ifs with c
    · rw [max_eq_left (by omega)]
    · rw [max_eq_right (by omega)]
  rw [hloc]

theorem percentile_index_bounds (n : Nat) (k : Int) (hn : 0 < n) (hk1 : 1 ≤ k)
    (hk2 : k ≤ 99) :
    0 ≤ max 0 ((100 - k) * (n : Int) / 100 - 1) ∧
      max 0 ((100 - k) * (n : Int) / 100 - 1) < n := by
  refine ⟨le_max_left _ _, ?_⟩
  have h1 : (100 - k) * (n : Int) ≤ 100 * (n : Int) :=
    Int.mul_le_mul_of_nonneg_right (by omega) (Int.ofNat_nonneg _)
  have h2 : (100 - k) * (n : Int) / 100 ≤ (n : Int) := by
    have := Int.ediv_le_ediv (by omega : (0 : Int) < 100) h1
    rwa [Int.mul_ediv_cancel_left _ (by omega : (100 : Int) ≠ 0)] at this
  rw [max_lt_iff]
  constructor
  · exact_mod_cast hn
  · omega

end PercentileProof

/-! ## The claims about Percentile and TotalComplexity -/

section PercentileClaims

/-- C6: for every Stats s and every k, Percentile(k) returns an error together
with the value -1 whenever the Complexity values of s are not non-increasing or
k < 1 or k > 99; and for every non-empty s whose Complexity values are
non-increasing (ties between neighbours allowed) and every k with 1 <= k <= 99 it
returns a value and no error. -/
theorem C6_percentile_errors (s : Stats) (k : Int) :
    ((¬ Descending s ∨ k < 1 ∨ k > 99) →
      ∃ msg, s.Percentile k = Outcome.returns (-1, some msg)) ∧
    (s ≠ [] → Descending s → 1 ≤ k → k ≤ 99 →
      ∃ v, s.Percentile k = Outcome.returns (v, none)) := by
  constructor
  · intro h
    by_cases hd : Descending s
    · have hk : k < 1 ∨ k > 99 := h.resolve_left (not_not_intro hd)
      exact ⟨_, Percentile_bad_k s k hd hk⟩
    · exact ⟨_, Percentile_unsorted s k hd⟩
  · intro hne hd hk1 hk2
    have hpos : 0 < s.length := List.length_pos.2 hne
    have hb := percentile_index_bounds s.length k hpos hk1 hk2
    have hlt : (max 0 ((100 - k) * (s.length : Int) / 100 - 1)).toNat < s.length := by
      omega
    rw [Percentile_good s k hd hk1 hk2, List.getElem?_eq_getElem hlt]
    exact ⟨_, rfl⟩

theorem C6_percentile_errors_witness :
    ((¬ Descending (Stats.ofComplexities [2, 4, 3, 1]) ∨ (50 : Int) < 1 ∨ (50 : Int) > 99) ∧
      ∃ msg, (Stats.ofComplexities [2, 4, 3, 1]).Percentile 50 =
        Outcome.returns (-1, some msg)) ∧
    (Stats.ofComplexities [4, 3, 3, 1] ≠ [] ∧ Descending (Stats.ofComplexities [4, 3, 3, 1]) ∧
      (1 : Int) ≤ 50 ∧ (50 : Int) ≤ 99 ∧
      ∃ v, (Stats.ofComplexities [4, 3, 3, 1]).Percentile 50 = Outcome.returns (v, none)) :=
  ⟨⟨Or.inl (by decide),
      (C6_percentile_errors (Stats.ofComplexities [2, 4, 3, 1]) 50).1 (Or.inl (by decide))⟩,
    ⟨by decide, by decide, by decide, by decide,
      (C6_percentile_errors (Stats.ofComplexities [4, 3, 3, 1]) 50).2 (by decide) (by decide)
        (by decide) (by decide)⟩⟩

/-- C7: for every non-empty Stats s of n entries with non-increasing Complexity
and every k with 1 <= k <= 99, the index idx = max(0, (100 - k) * n / 100 - 1)
satisfies 0 <= idx < n and Percentile(k) returns s[idx].Complexity with no error;
for the complexities 4, 3, 2, 1, Percentile(50) = 3 and Percentile(90) = 4. -/
theorem C7_percentile_index (s : Stats) (k : Int) (hne : s ≠ []) (hd : Descending s)
    (hk1 : 1 ≤ k) (hk2 : k ≤ 99) :
    0 ≤ max 0 ((100 - k) * (s.length : Int) / 100 - 1) ∧
    max 0 ((100 - k) * (s.length : Int) / 100 - 1) < s.length ∧
    (∃ stat, s[(max 0 ((100 - k) * (s.length : Int) / 100 - 1)).toNat]? = some stat ∧
      s.Percentile k = Outcome.returns (stat.Complexity, none)) ∧
    (Stats.ofComplexities [4, 3, 2, 1]).Percentile 50 = Outcome.returns (3, none) ∧
    (Stats.ofComplexities [4, 3, 2, 1]).Percentile 90 = Outcome.returns (4, none) := by
  have hpos : 0 < s.length := List.length_pos.2 hne
  have hb := percentile_index_bounds s.length k hpos hk1 hk2
  have hlt : (max 0 ((100 - k) * (s.length : Int) / 100 - 1)).toNat < s.length := by
    omega
  refine ⟨hb.1, hb.2, ⟨s[(max 0 ((100 - k) * (s.length : Int) / 100 - 1)).toNat],
    List.getElem?_eq_getElem hlt, ?_⟩, by decide, by decide⟩
  rw [Percentile_good s k hd hk1 hk2, List.getElem?_eq_getElem hlt]

theorem C7_percentile_index_witness :
    Stats.ofComplexities [9, 5, 5, 2, 1] ≠ [] ∧
    Descending (Stats.ofComplexities [9, 5, 5, 2, 1]) ∧ (1 : Int) ≤ 30 ∧ (30 : Int) ≤ 99 ∧
    ∃ stat, (Stats.ofComplexities [9, 5, 5, 2, 1])[(max 0
        ((100 - 30) * ((Stats.ofComplexities [9, 5, 5, 2, 1]).length : Int) / 100 - 1)).toNat]? =
        some stat ∧
      (Stats.ofComplexities [9, 5, 5, 2, 1]).Percentile 30 =
        Outcome.returns (stat.Complexity, none) :=
  ⟨by decide, by decide, by decide, by decide,
    (C7_percentile_index (Stats.ofComplexities [9, 5, 5, 2, 1]) 30 (by decide) (by decide)
      (by decide) (by decide)).2.2.1⟩

/-- C8, the code at the failing input: on the empty Stats and a valid k (1, 50
and 99 are shown) the sortedness check and the range check both pass, loc is
clamped from -1 to 0, and s[0] indexes an empty slice: the call does not return,
the run-time system stops the program with index out of range [0] with length 0. -/
theorem C8_percentile_empty_indexes_out_of_range :
    Stats.Percentile [] 1 = Outcome.indexOutOfRange 0 0 ∧
    Stats.Percentile [] 50 = Outcome.indexOutOfRange 0 0 ∧
    Stats.Percentile [] 99 = Outcome.indexOutOfRange 0 0 := by
  decide

theorem sum_complexity_nonneg : ∀ (s : Stats), (∀ x ∈ s, 1 ≤ x.Complexity) →
    0 ≤ (s.map Stat.Complexity).sum
  | [], _ => by simp
  | x :: s, h => by
    have h1 := h x (List.mem_cons_self x s)
    have h2 := sum_complexity_nonneg s (fun y hy => h y (List.mem_cons_of_mem x hy))
    rw [List.map_cons, List.sum_cons]
    omega

theorem totalComplexity_foldl : ∀ (s : Stats) (acc : Nat), (∀ x ∈ s, 1 ≤ x.Complexity) →
    (acc : Int) + (s.map Stat.Complexity).sum < 2 ^ 64 →
    ((s.foldl (fun total stat => (total + (stat.Complexity % 2 ^ 64).toNat) % 2 ^ 64) acc :
      Nat) : Int) = (acc : Int) + (s.map Stat.Complexity).sum
  | [], acc, _, _ => by simp
  | x :: s, acc, h, hsum => by
    have h1 := h x (List.mem_cons_self x s)
    have h2 := sum_complexity_nonneg s (fun y hy => h y (List.mem_cons_of_mem x hy))
    rw [List.map_cons, List.sum_cons] at hsum ⊢
    rw [List.foldl_cons]
    have e1 : x.Complexity % 2 ^ 64 = x.Complexity :=
      Int.emod_eq_of_lt (by omega) (by omega)
    have e2 : (acc + (x.Complexity % 2 ^ 64).toNat) % 2 ^ 64 = acc + x.Complexity.toNat := by
      rw [e1]
      apply Nat.mod_eq_of_lt
      have : ((acc + x.Complexity.toNat : Nat) : Int) < 2 ^ 64 := by
        push_cast
        rw [Int.toNat_of_nonneg (by omega)]
        omega
      exact_mod_cast this
    rw [e2]
    have ih := totalComplexity_foldl s (acc + x.Complexity.toNat)
      (fun y hy => h y (List.mem_cons_of_mem x hy)) (by
        push_cast
        rw [Int.toNat_of_nonneg (by omega)]
        omega)
    rw [ih]
    push_cast
    rw [Int.toNat_of_nonneg (by omega)]
    omega

/-- C9: for every Stats s whose Complexity values are all at least 1 and whose
sum is below 2^64, TotalComplexity() equals the sum of the Complexity values of
s; it is 0 for the empty set, and the complexities 2, 3, 3, 3 give 11. -/
theorem C9_totalComplexity_is_sum (s : Stats) (hs : ∀ x ∈ s, 1 ≤ x.Complexity)
    (hsum : (s.map Stat.Complexity).sum < 2 ^ 64) :
    (s.TotalComplexity : Int) = (s.map Stat.Complexity).sum ∧
    Stats.TotalComplexity [] = 0 ∧
    (Stats.ofComplexities [2, 3, 3, 3]).TotalComplexity = 11 := by
  refine ⟨?_, rfl, by decide⟩
  have := totalComplexity_foldl s 0 hs (by simpa using hsum)
  simpa [Stats.TotalComplexity] using this

theorem C9_totalComplexity_is_sum_witness :
    (∀ x ∈ Stats.ofComplexities [2, 3, 4], 1 ≤ x.Complexity) ∧
    ((Stats.ofComplexities [2, 3, 4]).map Stat.Complexity).sum < 2 ^ 64 ∧
    ((Stats.ofComplexities [2, 3, 4]).TotalComplexity : Int) =
      ((Stats.ofComplexities [2, 3, 4]).map Stat.Complexity).sum :=
  ⟨by decide, by decide,
    (C9_totalComplexity_is_sum (Stats.ofComplexities [2, 3, 4]) (by decide) (by decide)).1⟩

end PercentileClaims

/-! ## printCentile and main -/

section MainProof

theorem indicator_spec (K : Int) (h1 : 1 ≤ K) (h2 : K ≤ 99) :
    printCentile.indicator K = Outcome.returns (ordinalSuffix K) := by
  interval_cases K <;> rfl

theorem indicator_index_in_table (K : Int) (h1 : 1 ≤ K) (h2 : K ≤ 99) :
    0 ≤ Int.tmod K 10 ∧ Int.tmod K 10 < (printCentile.indicators.length : Int) := by
  rw [Int.tmod_eq_emod (by omega) (by omega)]
  have : (printCentile.indicators.length : Int) = 10 := rfl
  omega

/-- What printCentile does for a centile in 1 .. 99: it prints the label pieces
and then the Complexity at index (100 - centile) * len(s) / 100 - 1, or stops
with index out of range when that index is outside s. -/
theorem printCentile_eq (s : Stats) (centile : Int) (label : Bool) (h1 : 1 ≤ centile)
    (h2 : centile ≤ 99) :
    printCentile s centile label =
      match indexAt s ((100 - centile) * (s.length : Int) / 100 - 1) with
      | some stat =>
        (labelPieces centile label ++ [toString stat.Complexity ++ "\n"], Outcome.returns ())
      | none =>
        (labelPieces centile label,
          Outcome.indexOutOfRange ((100 - centile) * (s.length : Int) / 100 - 1) s.length) := by
  have hnn : 0 ≤ (100 - centile) * (s.length : Int) :=
    Int.mul_nonneg (by omega) (Int.ofNat_nonneg _)
  unfold printCentile
  rw [indicator_spec centile h1 h2, Int.tdiv_eq_ediv hnn (by omega)]
  simp only []
  generalize indexAt s ((100 - centile) * (s.length : Int) / 100 - 1) = o
  cases label <;> cases o <;> simp [labelPieces]

theorem indexAt_of_nonneg {α : Type} (s : List α) (i : Int) (h : 0 ≤ i) :
    indexAt s i = s[i.toNat]? := by
  unfold indexAt
  rw [if_neg (by omega)]

theorem indexAt_of_neg {α : Type} (s : List α) (i : Int) (h : i < 0) : indexAt s i = none := by
  unfold indexAt
  rw [if_pos h]

end MainProof

section MainProof2

theorem printCentile_in_range (s : Stats) (centile : Int) (label : Bool) (h1 : 1 ≤ centile)
    (h2 : centile ≤ 99) (hq : 100 ≤ (100 - centile) * (s.length : Int)) :
    ∃ stat, s[(max 0 ((100 - centile) * (s.length : Int) / 100 - 1)).toNat]? = some stat ∧
      printCentile s centile label =
        (labelPieces centile label ++ [toString stat.Complexity ++ "\n"], Outcome.returns ()) := by
  have hpos : 0 < s.length := by
    rcases Nat.eq_zero_or_pos s.length with h0 | h0
    · rw [h0] at hq; simp at hq
    · exact h0
  have hb := percentile_index_bounds s.length centile hpos h1 h2
  have hq1 : 1 ≤ (100 - centile) * (s.length : Int) / 100 := by omega
  have hmax : max 0 ((100 - centile) * (s.length : Int) / 100 - 1) =
      (100 - centile) * (s.length : Int) / 100 - 1 := max_eq_right (by omega)
  have hlt : (max 0 ((100 - centile) * (s.length : Int) / 100 - 1)).toNat < s.length := by
    omega
  have hget := List.getElem?_eq_getElem hlt
  have e : ((100 - centile) * (s.length : Int) / 100 - 1).toNat =
      (max 0 ((100 - centile) * (s.length : Int) / 100 - 1)).toNat := by rw [hmax]
  refine ⟨_, hget, ?_⟩
  rw [printCentile_eq s centile label h1 h2, indexAt_of_nonneg _ _ (by omega), e, hget]

theorem printCentile_out_of_range (s : Stats) (centile : Int) (label : Bool)
    (h1 : 1 ≤ centile) (h2 : centile ≤ 99) (hq : (100 - centile) * (s.length : Int) < 100) :
    printCentile s centile label =
      (labelPieces centile label, Outcome.indexOutOfRange (-1) s.length) := by
  have hnn : 0 ≤ (100 - centile) * (s.length : Int) :=
    Int.mul_nonneg (by omega) (Int.ofNat_nonneg _)
  have hq0 : (100 - centile) * (s.length : Int) / 100 = 0 :=
    Int.ediv_eq_zero_of_lt hnn hq
  rw [printCentile_eq s centile label h1 h2, hq0, indexAt_of_neg _ _ (by omega)]
  rfl

/-- A usage error of the percentile options ends lines 74-101 with os.Exit(2). -/
theorem report_usage (cl : CommandLine) (allStats : Stats)
    (h : (cl.centile.getD 0 > 0 ∧ cl.centileShort.getD 0 > 0) ∨
      cl.centile.getD 0 > 99 ∨ cl.centileShort.getD 0 > 99) :
    (main.report cl allStats).2 = Ending.exit 2 := by
  unfold main.report
  simp only []
  by_cases hb : (decide (cl.centile.getD 0 > 0) && decide (cl.centileShort.getD 0 > 0)) = true
  · rw [if_pos hb]
  · rw [if_neg hb]
    have hb2 : ¬ (cl.centile.getD 0 > 0 ∧ cl.centileShort.getD 0 > 0) := by
      simpa using hb
    have hv : (if cl.centile.getD 0 > 0 then cl.centile.getD 0
        else if cl.centileShort.getD 0 > 0 then cl.centileShort.getD 0 else 0) > 99 := by
      split_ifs <;> omega
    rw [if_pos hv]

/-- Without a percentile request lines 74-101 end with the check of lines
99-101. -/
theorem report_no_centile (cl : CommandLine) (allStats : Stats)
    (hc : cl.centile.getD 0 ≤ 0) (hcs : cl.centileShort.getD 0 ≤ 0) :
    (main.report cl allStats).2 =
      main.exitCheck (cl.over.getD 0)
        (allStats.SortAndFilter (cl.top.getD (-1)) (cl.over.getD 0)) := by
  unfold main.report
  simp only []
  have hb : ¬ (decide (cl.centile.getD 0 > 0) && decide (cl.centileShort.getD 0 > 0)) = true := by
    simp; omega
  rw [if_neg hb]
  have hv : (if cl.centile.getD 0 > 0 then cl.centile.getD 0
      else if cl.centileShort.getD 0 > 0 then cl.centileShort.getD 0 else 0) = 0 := by
    rw [if_neg (by omega), if_neg (by omega)]
  rw [hv, if_neg (by omega), if_neg (by omega)]

/-- With one percentile request K in 1 .. 99, lines 74-101 end as printCentile
ends: with the check of lines 99-101 when printCentile returns, with its
run-time error otherwise. -/
theorem report_with_centile (cl : CommandLine) (allStats : Stats)
    (hb : ¬ (cl.centile.getD 0 > 0 ∧ cl.centileShort.getD 0 > 0)) (K : Int)
    (hK : K = if cl.centile.getD 0 > 0 then cl.centile.getD 0 else cl.centileShort.getD 0)
    (h1 : 1 ≤ K) (h2 : K ≤ 99) :
    (main.report cl allStats).2 =
      match (printCentile (allStats.SortAndFilter (-1) 0) K
        (decide (cl.centile.getD 0 > 0))).2 with
      | Outcome.returns _ =>
        main.exitCheck (cl.over.getD 0)
          (allStats.SortAndFilter (cl.top.getD (-1)) (cl.over.getD 0))
      | Outcome.indexOutOfRange i n => Ending.indexOutOfRange i n := by
  unfold main.report
  simp only []
  have hb2 : ¬ (decide (cl.centile.getD 0 > 0) && decide (cl.centileShort.getD 0 > 0)) = true := by
    simpa using hb
  rw [if_neg hb2]
  have hv : (if cl.centile.getD 0 > 0 then cl.centile.getD 0
      else if cl.centileShort.getD 0 > 0 then cl.centileShort.getD 0 else 0) = K := by
    rw [hK]
    split_ifs <;> first | rfl | omega
  have hl : (if cl.centile.getD 0 > 0 then true
      else if cl.centileShort.getD 0 > 0 then false else true) =
      decide (cl.centile.getD 0 > 0) := by
    split_ifs with c1 c2
    · simp [c1]
    · simp [c1]
    · exfalso
      rw [if_neg c1] at hK
      omega
  rw [hv, hl, if_neg (by omega), if_pos (by omega)]
  rcases hpc : printCentile (allStats.SortAndFilter (-1) 0) K
    (decide (cl.centile.getD 0 > 0)) with ⟨pieces, o⟩
  cases o <;> rfl

/-- The -ignore expression is empty or regexp.Compile accepts it. -/
theorem regex_ok (w : World) (expr : String)
    (h : expr = "" ∨ w.regexpCompiles expr = true) :
    ∃ re, regex w expr = Except.ok re := by
  unfold regex
  by_cases h1 : expr = ""
  · rw [if_pos h1]; exact ⟨_, rfl⟩
  · rw [if_neg h1, if_pos (h.resolve_left h1)]; exact ⟨_, rfl⟩

/-- A run with paths whose -ignore expression is empty or compiles is lines
74-101 applied to the result of Analyze. -/
theorem main_eq_report (w : World) (cl : CommandLine) (hp : cl.paths ≠ [])
    (hig : cl.ignore.getD "" = "" ∨ w.regexpCompiles (cl.ignore.getD "") = true) :
    main w cl = main.report cl (main.allStats w cl) := by
  have hp2 : ¬ cl.paths.length = 0 := fun h => hp (List.length_eq_zero.1 h)
  obtain ⟨re, hre⟩ := regex_ok w _ hig
  unfold main main.allStats
  rw [if_neg hp2, hre]

/-- A run with paths whose -ignore expression does not compile ends in
log.Fatal: nothing on standard output, exit status 1. -/
theorem main_bad_ignore (w : World) (cl : CommandLine) (hp : cl.paths ≠ [])
    (h1 : cl.ignore.getD "" ≠ "") (h2 : w.regexpCompiles (cl.ignore.getD "") = false) :
    main w cl = ([], Ending.exit 1) := by
  have hp2 : ¬ cl.paths.length = 0 := fun h => hp (List.length_eq_zero.1 h)
  unfold main regex
  rw [if_neg hp2, if_neg h1, h2]
  rfl

/-- A run without paths ends in usage(): exit status 2. -/
theorem main_no_paths (w : World) (cl : CommandLine) (hp : cl.paths = []) :
    main w cl = ([], Ending.exit 2) := by
  unfold main
  rw [hp]
  rfl

end MainProof2

/-! ## The claims about the command -/

section MainClaims

/-- The exit status after lines 74-101 when there is no usage error and
printCentile is not called or its index is inside the sorted set: 1 when the
-over value is positive and the shown list is not empty, otherwise 0. -/
theorem report_status_of_index_in_range (cl : CommandLine) (allStats : Stats)
    (hb : ¬ (cl.centile.getD 0 > 0 ∧ cl.centileShort.getD 0 > 0))
    (hc : cl.centile.getD 0 ≤ 99) (hcs : cl.centileShort.getD 0 ≤ 99)
    (hok : (cl.centile.getD 0 ≤ 0 ∧ cl.centileShort.getD 0 ≤ 0) ∨
      100 ≤ (100 - (if cl.centile.getD 0 > 0 then cl.centile.getD 0
        else cl.centileShort.getD 0)) * ((allStats.SortAndFilter (-1) 0).length : Int)) :
    (main.report cl allStats).2.status =
      if cl.over.getD 0 > 0 ∧
        allStats.SortAndFilter (cl.top.getD (-1)) (cl.over.getD 0) ≠ [] then 1 else 0 := by
  have hcheck : (main.report cl allStats).2 = main.exitCheck (cl.over.getD 0)
      (allStats.SortAndFilter (cl.top.getD (-1)) (cl.over.getD 0)) := by
    by_cases hno : cl.centile.getD 0 ≤ 0 ∧ cl.centileShort.getD 0 ≤ 0
    · exact report_no_centile cl allStats hno.1 hno.2
    · have hq := hok.resolve_left hno
      have h1 : 1 ≤ (if cl.centile.getD 0 > 0 then cl.centile.getD 0
          else cl.centileShort.getD 0) := by
        split_ifs <;> omega
      have h2 : (if cl.centile.getD 0 > 0 then cl.centile.getD 0
          else cl.centileShort.getD 0) ≤ 99 := by
        split_ifs <;> omega
      rw [report_with_centile cl allStats hb _ rfl h1 h2]
      obtain ⟨stat, _, hpc⟩ := printCentile_in_range (allStats.SortAndFilter (-1) 0) _
        (decide (cl.centile.getD 0 > 0)) h1 h2 hq
      rw [hpc]
  rw [hcheck]
  unfold main.exitCheck
  by_cases hne : allStats.SortAndFilter (cl.top.getD (-1)) (cl.over.getD 0) = []
  · rw [hne]
    simp [Ending.status]
  · have hlen : 0 < (allStats.SortAndFilter (cl.top.getD (-1)) (cl.over.getD 0)).length :=
      List.length_pos.2 hne
    by_cases ho : cl.over.getD 0 > 0
    · simp [Ending.status, ho, hlen, hne]
    · simp [Ending.status, ho]

/-- C11, the code at the failing input: for one analysed function of Complexity
1 and K = 50, Stats.Percentile clamps the index to 0 and returns 1, while
printCentile computes loc = 50 * 1 / 100 - 1 = -1, prints the label and then
evaluates s[-1]: the run-time system stops the program with index out of range. -/
theorem C11_printCentile_indexes_out_of_range :
    (Stats.ofComplexities [1]).SortAndFilter (-1) 0 = Stats.ofComplexities [1] ∧
    ((Stats.ofComplexities [1]).SortAndFilter (-1) 0).Percentile 50 =
      Outcome.returns (1, none) ∧
    printCentile ((Stats.ofComplexities [1]).SortAndFilter (-1) 0) 50 true =
      (["50th-percentile: "], Outcome.indexOutOfRange (-1) 1) := by
  decide

/-- C12, the code at the failing input: the run gocyclo -centile 50 a.go over one
analysed function of Complexity 1 has paths and no usage error and no -over
flag, yet it does not end with status 0: printCentile stops it with index out of
range, which the Go run-time system turns into exit status 2. -/
theorem C12_run_ends_with_status_two :
    (main (exampleWorld (Stats.ofComplexities [1]))
      ⟨none, none, none, none, some 50, none, none, ["a.go"]⟩).2 =
      Ending.indexOutOfRange (-1) 1 ∧
    (main (exampleWorld (Stats.ofComplexities [1]))
      ⟨none, none, none, none, some 50, none, none, ["a.go"]⟩).2.status = 2 := by
  decide

/-- C13 as stated fails: with -centile 0 (an argument outside 1 .. 99) the run
ends with status 0, because 0 is the default of the flag and stands for an
absent option; and with -ignore "(" -centile 100 the run ends with status 1,
because the -ignore expression is compiled (and log.Fatal called) before the
percentile options are looked at. -/
theorem C13_status_is_not_always_two :
    (main (exampleWorld (Stats.ofComplexities [4, 3, 2, 1]))
      ⟨none, none, none, none, some 0, none, none, ["a.go"]⟩).2.status = 0 ∧
    (main (exampleWorld (Stats.ofComplexities [4, 3, 2, 1]))
      ⟨none, none, none, none, some 100, none, some "(", ["a.go"]⟩).2.status = 1 := by
  decide

/-- C13 as amended: in a run whose -ignore expression is empty or compiles, or
that has no paths, the command ends with the usage-error status 2 whenever an
argument above 99 is supplied to -centile or -centile-short, and whenever both
-centile and -centile-short are supplied with arguments of at least 1; a run
with paths whose -ignore expression does not compile ends with status 1; the
argument 0 is the same as the option not given. -/
theorem C13_usage_error_status (w : World) (cl : CommandLine) :
    ((cl.paths = [] ∨ cl.ignore.getD "" = "" ∨ w.regexpCompiles (cl.ignore.getD "") = true) →
      ((∃ k, (cl.centile = some k ∨ cl.centileShort = some k) ∧ 99 < k) ∨
        (∃ k₁ k₂, cl.centile = some k₁ ∧ cl.centileShort = some k₂ ∧ 1 ≤ k₁ ∧ 1 ≤ k₂)) →
      (main w cl).2 = Ending.exit 2 ∧ (main w cl).2.status = 2) ∧
    (cl.paths ≠ [] → cl.ignore.getD "" ≠ "" → w.regexpCompiles (cl.ignore.getD "") = false →
      (main w cl).2 = Ending.exit 1 ∧ (main w cl).2.status = 1) ∧
    main w { cl with centile := some 0 } = main w { cl with centile := none } ∧
    main w { cl with centileShort := some 0 } = main w { cl with centileShort := none } := by
  refine ⟨?_, ?_, ?_, ?_⟩
  · intro hrun hk
    have h : (main w cl).2 = Ending.exit 2 := by
      by_cases hp : cl.paths = []
      · rw [main_no_paths w cl hp]
      · rw [main_eq_report w cl hp (hrun.resolve_left hp)]
        apply report_usage
        rcases hk with ⟨k, hk, h99⟩ | ⟨k₁, k₂, hk₁, hk₂, h1, h2⟩
        · rcases hk with hk | hk
          · right; left; rw [hk]; exact h99
          · right; right; rw [hk]; exact h99
        · left
          rw [hk₁, hk₂]
          exact ⟨by simp only [Option.getD_some]; omega, by simp only [Option.getD_some]; omega⟩
    exact ⟨h, by rw [h]; rfl⟩
  · intro hp h1 h2
    rw [main_bad_ignore w cl hp h1 h2]
    exact ⟨rfl, rfl⟩
  · rfl
  · rfl

theorem C13_usage_error_status_witness :
    (main (exampleWorld (Stats.ofComplexities [4, 3, 2, 1]))
      ⟨none, none, none, none, some 100, none, none, ["a.go"]⟩).2.status = 2 ∧
    (main (exampleWorld (Stats.ofComplexities [4, 3, 2, 1]))
      ⟨none, none, none, none, some 50, some 90, none, ["a.go"]⟩).2.status = 2 ∧
    (main (exampleWorld (Stats.ofComplexities [4, 3, 2, 1]))
      ⟨none, none, none, none, some 50, none, some "(", ["a.go"]⟩).2.status = 1 :=
  ⟨((C13_usage_error_status (exampleWorld (Stats.ofComplexities [4, 3, 2, 1]))
      ⟨none, none, none, none, some 100, none, none, ["a.go"]⟩).1
      (Or.inr (Or.inl rfl)) (Or.inl ⟨100, Or.inl rfl, by decide⟩)).2,
    ((C13_usage_error_status (exampleWorld (Stats.ofComplexities [4, 3, 2, 1]))
      ⟨none, none, none, none, some 50, some 90, none, ["a.go"]⟩).1
      (Or.inr (Or.inl rfl)) (Or.inr ⟨50, 90, rfl, rfl, by decide, by decide⟩)).2,
    ((C13_usage_error_status (exampleWorld (Stats.ofComplexities [4, 3, 2, 1]))
      ⟨none, none, none, none, some 50, none, some "(", ["a.go"]⟩).2.1
      (by decide) (by decide) (by decide)).2⟩

/-- C15: for every K with 1 <= K <= 99 the label printCentile prints is K
followed by the English ordinal suffix of the specification (th for 11, 12 and
13, otherwise st, nd, rd for K mod 10 = 1, 2, 3, and th in every other case)
and -percentile; the lookup indicators[K mod 10] is inside the 10-element table. -/
theorem C15_ordinal_label (K : Int) (s : Stats) (h1 : 1 ≤ K) (h2 : K ≤ 99) :
    printCentile.indicator K = Outcome.returns (ordinalSuffix K) ∧
    (printCentile s K true).1.head? =
      some (toString K ++ ordinalSuffix K ++ "-percentile: ") ∧
    printCentile.indicators.length = 10 ∧
    0 ≤ Int.tmod K 10 ∧ Int.tmod K 10 < (printCentile.indicators.length : Int) := by
  refine ⟨indicator_spec K h1 h2, ?_, rfl, indicator_index_in_table K h1 h2⟩
  rw [printCentile_eq s K true h1 h2]
  cases indexAt s ((100 - K) * (s.length : Int) / 100 - 1) <;> simp [labelPieces]

theorem C15_ordinal_label_witness :
    (1 : Int) ≤ 22 ∧ (22 : Int) ≤ 99 ∧
    printCentile.indicator 22 = Outcome.returns (ordinalSuffix 22) ∧
    (printCentile (Stats.ofComplexities [4, 3, 2, 1]) 22 true).1.head? =
      some (toString (22 : Int) ++ ordinalSuffix 22 ++ "-percentile: ") :=
  ⟨by decide, by decide,
    (C15_ordinal_label 22 (Stats.ofComplexities [4, 3, 2, 1]) (by decide) (by decide)).1,
    (C15_ordinal_label 22 (Stats.ofComplexities [4, 3, 2, 1]) (by decide) (by decide)).2.1⟩

/-- C16 as stated fails: with -over 4 -centile 100 over the complexities 2, 7, 5 a
function exceeds 4 and top is not 0, yet the run ends with the usage-error
status 2, not 1; and with -over 4 -ignore "(" over the complexities 2, 3 no
function exceeds 4, yet the run ends with status 1 (log.Fatal). -/
theorem C16_status_one_is_not_exactly_exceeding :
    (main (exampleWorld (Stats.ofComplexities [2, 7, 5]))
      ⟨some 4, none, none, none, some 100, none, none, ["a.go"]⟩).2.status = 2 ∧
    (∃ x ∈ Stats.ofComplexities [2, 7, 5], (4 : Int) < x.Complexity) ∧
    (main (exampleWorld (Stats.ofComplexities [2, 3]))
      ⟨some 4, none, none, none, none, none, some "(", ["a.go"]⟩).2.status = 1 ∧
    ¬ (∃ x ∈ Stats.ofComplexities [2, 3], (4 : Int) < x.Complexity) := by
  decide

/-- C16 as amended: for every Stats s, every top and every over,
SortAndFilter(top, over) is non-empty if and only if top is not 0 and some entry
of s has Complexity > over; hence, with a positive -over value N, the check of
lines 99-101 ends the run with status 1 exactly when top is not 0 and some
function exceeds N, and so does every run that has paths, an -ignore expression
that is empty or compiles, no usage error of the percentile options, and no
percentile request or a percentile index inside the set; a run with paths whose
-ignore expression does not compile ends with status 1 whatever the functions
are. -/
theorem C16_nonempty_iff (s : Stats) (top over : Int) :
    (s.SortAndFilter top over ≠ [] ↔ top ≠ 0 ∧ ∃ x ∈ s, over < x.Complexity) ∧
    (0 < over → (main.exitCheck over (s.SortAndFilter top over) = Ending.exit 1 ↔
      top ≠ 0 ∧ ∃ x ∈ s, over < x.Complexity)) ∧
    (∀ (w : World) (cl : CommandLine), cl.paths ≠ [] →
      (cl.ignore.getD "" = "" ∨ w.regexpCompiles (cl.ignore.getD "") = true) →
      ¬ (cl.centile.getD 0 > 0 ∧ cl.centileShort.getD 0 > 0) →
      cl.centile.getD 0 ≤ 99 → cl.centileShort.getD 0 ≤ 99 →
      ((cl.centile.getD 0 ≤ 0 ∧ cl.centileShort.getD 0 ≤ 0) ∨
        100 ≤ (100 - (if cl.centile.getD 0 > 0 then cl.centile.getD 0
          else cl.centileShort.getD 0)) *
            (((main.allStats w cl).SortAndFilter (-1) 0).length : Int)) →
      main.allStats w cl = s → cl.top.getD (-1) = top → cl.over.getD 0 = over → 0 < over →
      ((main w cl).2.status = 1 ↔ top ≠ 0 ∧ ∃ x ∈ s, over < x.Complexity)) ∧
    (∀ (w : World) (cl : CommandLine), cl.paths ≠ [] → cl.ignore.getD "" ≠ "" →
      w.regexpCompiles (cl.ignore.getD "") = false → (main w cl).2.status = 1) := by
  have hfil : (sort.Stable s).filter (isOver over) ≠ [] ↔ ∃ x ∈ s, over < x.Complexity := by
    rw [Ne, List.filter_eq_nil_iff]
    push_neg
    constructor
    · rintro ⟨x, hx, hpx⟩
      exact ⟨x, (Stable_perm s).mem_iff.1 hx, by simpa [isOver] using hpx⟩
    · rintro ⟨x, hx, hpx⟩
      exact ⟨x, (Stable_perm s).mem_iff.2 hx, by simpa [isOver] using hpx⟩
  have hne : s.SortAndFilter top over ≠ [] ↔ top ≠ 0 ∧ ∃ x ∈ s, over < x.Complexity := by
    by_cases htop : top < 0
    · rw [SortAndFilter_neg_top s top over htop, hfil]
      constructor
      · intro h; exact ⟨by omega, h⟩
      · intro h; exact h.2
    · rw [SortAndFilter_nonneg_top s top over (by omega), ← hfil]
      by_cases h0 : top = 0
      · subst h0
        simp
      · have hpos : top.toNat ≠ 0 := by omega
        rw [Ne, List.take_eq_nil_iff]
        constructor
        · intro h
          exact ⟨h0, fun hnil => h (Or.inr hnil)⟩
        · intro h hor
          rcases hor with hor | hor
          · exact hpos hor
          · exact h.2 hor
  have hcheck : 0 < over → (main.exitCheck over (s.SortAndFilter top over) = Ending.exit 1 ↔
      top ≠ 0 ∧ ∃ x ∈ s, over < x.Complexity) := by
    intro ho
    rw [← hne]
    unfold main.exitCheck
    by_cases hnil : s.SortAndFilter top over = []
    · rw [hnil]
      simp
    · have hlen : 0 < (s.SortAndFilter top over).length := List.length_pos.2 hnil
      simp [ho, hlen, hnil]
  refine ⟨hne, hcheck, ?_, ?_⟩
  · intro w cl hp hig hb hc hcs hok hs htop hover ho
    rw [main_eq_report w cl hp hig,
      report_status_of_index_in_range cl (main.allStats w cl) hb hc hcs hok, hs, htop, hover,
      ← hne]
    by_cases hnil : s.SortAndFilter top over = []
    · simp [hnil]
    · simp [hnil, ho]
  · intro w cl hp h1 h2
    rw [main_bad_ignore w cl hp h1 h2]
    rfl

theorem C16_nonempty_iff_witness :
    (0 : Int) < 4 ∧
    (main (exampleWorld (Stats.ofComplexities [2, 7, 5]))
      ⟨some 4, some 1, none, none, none, none, none, ["a.go"]⟩).2.status = 1 ∧
    (Stats.ofComplexities [2, 7, 5]).SortAndFilter 1 4 ≠ [] :=
  ⟨by decide,
    ((C16_nonempty_iff (Stats.ofComplexities [2, 7, 5]) 1 4).2.2.1
      (exampleWorld (Stats.ofComplexities [2, 7, 5]))
      ⟨some 4, some 1, none, none, none, none, none, ["a.go"]⟩
      (by decide) (Or.inl rfl) (by decide) (by decide) (by decide)
      (Or.inl ⟨by decide, by decide⟩) rfl rfl rfl (by decide)).2
      ⟨by decide, Stat.ofComplexity 7, by decide, by decide⟩,
    (C16_nonempty_iff (Stats.ofComplexities [2, 7, 5]) 1 4).1.2
      ⟨by decide, Stat.ofComplexity 7, by decide, by decide⟩⟩

end MainClaims

/-! ## Independence of the input order, monotonicity and rank of Percentile -/

section OrderClaims

theorem complexities_Stable_congr {s t : Stats} (h : List.Perm s t) :
    (sort.Stable s).complexities = (sort.Stable t).complexities := by
  unfold Stats.complexities
  have hs : List.Pairwise (fun a b : Int => a ≥ b) ((sort.Stable s).map Stat.Complexity) :=
    List.pairwise_map.2 (Stable_descending s)
  have ht : List.Pairwise (fun a b : Int => a ≥ b) ((sort.Stable t).map Stat.Complexity) :=
    List.pairwise_map.2 (Stable_descending t)
  have hp : List.Perm ((sort.Stable s).map Stat.Complexity)
      ((sort.Stable t).map Stat.Complexity) :=
    ((Stable_perm s).trans (h.trans (Stable_perm t).symm)).map _
  exact List.Perm.eq_of_sorted (fun a b _ _ h1 h2 => le_antisymm h2 h1) hs ht hp

theorem complexities_filter_isOver (over : Int) (l : Stats) :
    Stats.complexities (l.filter (isOver over)) =
      l.complexities.filter (fun c => decide (over < c)) := by
  unfold Stats.complexities
  rw [List.filter_map]
  rfl

/-- The Complexity values of SortAndFilter(top, over) are a function of the
Complexity values of the sorted copy. -/
theorem complexities_SortAndFilter (s : Stats) (top over : Int) :
    (s.SortAndFilter top over).complexities =
      if 0 ≤ top then
        ((sort.Stable s).complexities.filter (fun c => decide (over < c))).take top.toNat
      else (sort.Stable s).complexities.filter (fun c => decide (over < c)) := by
  by_cases htop : 0 ≤ top
  · rw [if_pos htop, SortAndFilter_nonneg_top s top over htop, ← complexities_filter_isOver]
    unfold Stats.complexities
    rw [List.map_take]
  · rw [if_neg htop, SortAndFilter_neg_top s top over (by omega), complexities_filter_isOver]

theorem key_eq_complexities_getD (s : Stats) (i : Nat) :
    s.key i = s.complexities.getD i (Stat.Complexity default) := by
  unfold Stats.key Stats.at Stats.complexities
  rw [List.getD_map]

/-- Percentile reads only the Complexity values. -/
theorem Percentile_congr {s t : Stats} (h : s.complexities = t.complexities) (k : Int) :
    s.Percentile k = t.Percentile k := by
  have hlen : s.length = t.length := by
    have := congrArg List.length h
    simpa [Stats.complexities] using this
  have hkey : ∀ i, s.key i = t.key i := fun i => by
    rw [key_eq_complexities_getD, key_eq_complexities_getD, h]
  have hget : ∀ n : Nat, (s[n]?).map Stat.Complexity = (t[n]?).map Stat.Complexity := by
    intro n
    have := congrArg (fun l : List Int => l[n]?) h
    simpa [Stats.complexities] using this
  have hf : (fun i j => decide (s.key i > s.key j)) =
      (fun i j => decide (t.key i > t.key j)) := by
    funext i j
    rw [hkey i, hkey j]
  unfold Stats.Percentile
  rw [hf, hlen]
  by_cases c1 : (!sort.SliceIsSorted t.length fun i j => decide (t.key i > t.key j)) = true
  · rw [if_pos c1, if_pos c1]
  · rw [if_neg c1, if_neg c1]
    by_cases c2 : (decide (k < 1) || decide (k > 99)) = true
    · rw [if_pos c2, if_pos c2]
    · rw [if_neg c2, if_neg c2]
      simp only []
      generalize (if Int.tdiv ((100 - k) * (t.length : Int)) 100 - 1 < 0 then (0 : Int)
        else Int.tdiv ((100 - k) * (t.length : Int)) 100 - 1) = loc
      have hg := hget loc.toNat
      cases hs : s[loc.toNat]? <;> cases ht : t[loc.toNat]? <;> rw [hs, ht] at hg <;>
        simp at hg ⊢
      exact hg

/-- C14: the reported complexities do not depend on the order in which the
measurements were merged: for every Stats s, every permutation s' of s, every
top and every over, the Complexity values of s'.SortAndFilter(top, over) are
those of s.SortAndFilter(top, over), and for every k (in particular every k in
1 .. 99) Percentile(k) of s'.SortAndFilter(-1, 0) equals Percentile(k) of
s.SortAndFilter(-1, 0). -/
theorem C14_order_of_merging_is_irrelevant (s s' : Stats) (h : List.Perm s' s)
    (top over k : Int) :
    (s'.SortAndFilter top over).complexities = (s.SortAndFilter top over).complexities ∧
    (s'.SortAndFilter (-1) 0).Percentile k = (s.SortAndFilter (-1) 0).Percentile k := by
  have hc := complexities_Stable_congr h
  constructor
  · rw [complexities_SortAndFilter, complexities_SortAndFilter, hc]
  · apply Percentile_congr
    rw [complexities_SortAndFilter, complexities_SortAndFilter, hc]

theorem C14_order_of_merging_is_irrelevant_witness :
    List.Perm (Stats.ofComplexities [1, 3, 2]) (Stats.ofComplexities [2, 1, 3]) ∧
    ((Stats.ofComplexities [1, 3, 2]).SortAndFilter 2 1).complexities =
      ((Stats.ofComplexities [2, 1, 3]).SortAndFilter 2 1).complexities :=
  ⟨by decide,
    (C14_order_of_merging_is_irrelevant (Stats.ofComplexities [2, 1, 3])
      (Stats.ofComplexities [1, 3, 2]) (by decide) 2 1 50).1⟩

/-- The index used by Percentile does not grow with k. -/
theorem percentile_index_antitone (n : Nat) (k₁ k₂ : Int) (h : k₁ ≤ k₂) :
    max 0 ((100 - k₂) * (n : Int) / 100 - 1) ≤ max 0 ((100 - k₁) * (n : Int) / 100 - 1) := by
  have h1 : (100 - k₂) * (n : Int) ≤ (100 - k₁) * (n : Int) :=
    Int.mul_le_mul_of_nonneg_right (by omega) (Int.ofNat_nonneg _)
  have h2 := Int.ediv_le_ediv (by omega : (0 : Int) < 100) h1
  exact max_le_max (le_refl _) (by omega)

/-- The value Percentile returns on a non-empty sorted s for k in 1 .. 99. -/
theorem Percentile_value (s : Stats) (k : Int) (hne : s ≠ []) (hd : Descending s)
    (h1 : 1 ≤ k) (h2 : k ≤ 99) :
    (max 0 ((100 - k) * (s.length : Int) / 100 - 1)).toNat < s.length ∧
    s.Percentile k =
      Outcome.returns (s.key (max 0 ((100 - k) * (s.length : Int) / 100 - 1)).toNat, none) := by
  have hpos : 0 < s.length := List.length_pos.2 hne
  have hb := percentile_index_bounds s.length k hpos h1 h2
  have hlt : (max 0 ((100 - k) * (s.length : Int) / 100 - 1)).toNat < s.length := by
    omega
  refine ⟨hlt, ?_⟩
  rw [Percentile_good s k hd h1 h2, List.getElem?_eq_getElem hlt]
  unfold Stats.key
  rw [at_eq_getElem s hlt]

/-- C17: Percentile is monotone in k: for every non-empty Stats s with
non-increasing Complexity and every k1, k2 with 1 <= k1 <= k2 <= 99, both calls
return a value and no error, and Percentile(k1) <= Percentile(k2). -/
theorem C17_percentile_monotone (s : Stats) (k₁ k₂ : Int) (hne : s ≠ [])
    (hd : Descending s) (h1 : 1 ≤ k₁) (h12 : k₁ ≤ k₂) (h2 : k₂ ≤ 99) :
    ∃ v₁ v₂, s.Percentile k₁ = Outcome.returns (v₁, none) ∧
      s.Percentile k₂ = Outcome.returns (v₂, none) ∧ v₁ ≤ v₂ := by
  obtain ⟨hlt₁, hv₁⟩ := Percentile_value s k₁ hne hd h1 (by omega)
  obtain ⟨hlt₂, hv₂⟩ := Percentile_value s k₂ hne hd (by omega) h2
  refine ⟨_, _, hv₁, hv₂, ?_⟩
  have hidx := percentile_index_antitone s.length k₁ k₂ h12
  have hs := (descending_iff_sortedOn s).1 hd
  exact SortedOn.le hs (Nat.zero_le _) (by omega) hlt₁

theorem C17_percentile_monotone_witness :
    Stats.ofComplexities [9, 5, 5, 2, 1] ≠ [] ∧
    Descending (Stats.ofComplexities [9, 5, 5, 2, 1]) ∧
    (1 : Int) ≤ 20 ∧ (20 : Int) ≤ 70 ∧ (70 : Int) ≤ 99 ∧
    ∃ v₁ v₂, (Stats.ofComplexities [9, 5, 5, 2, 1]).Percentile 20 = Outcome.returns (v₁, none) ∧
      (Stats.ofComplexities [9, 5, 5, 2, 1]).Percentile 70 = Outcome.returns (v₂, none) ∧
      v₁ ≤ v₂ :=
  ⟨by decide, by decide, by decide, by decide, by decide,
    C17_percentile_monotone (Stats.ofComplexities [9, 5, 5, 2, 1]) 20 70 (by decide)
      (by decide) (by decide) (by decide) (by decide)⟩

/-- In a sorted s no entry from index i on has a Complexity greater than the
one at index i. -/
theorem filter_greater_drop (s : Stats) (hd : Descending s) (i : Nat) (hi : i < s.length) :
    (s.drop i).filter (fun x => decide (s.key i < x.Complexity)) = [] := by
  rw [List.filter_eq_nil_iff]
  intro x hx
  have hs := (descending_iff_sortedOn s).1 hd
  obtain ⟨j, hj, rfl⟩ := List.getElem_of_mem hx
  rw [List.getElem_drop]
  have hj2 : i + j < s.length := by
    rw [List.length_drop] at hj
    omega
  have := SortedOn.le hs (Nat.zero_le i) (Nat.le_add_right i j) hj2
  unfold Stats.key at this ⊢
  rw [at_eq_getElem s hj2] at this
  simp only [decide_eq_true_eq, not_lt]
  exact this

/-- C18: for every non-empty Stats s of n entries with non-increasing Complexity
and every k with 1 <= k <= 99, the value p = Percentile(k) is the Complexity of
some entry of s, and the number of entries of s with Complexity strictly
greater than p is at most (100 - k) * n / 100. -/
theorem C18_percentile_rank (s : Stats) (k : Int) (hne : s ≠ []) (hd : Descending s)
    (h1 : 1 ≤ k) (h2 : k ≤ 99) :
    ∃ p, s.Percentile k = Outcome.returns (p, none) ∧ (∃ x ∈ s, x.Complexity = p) ∧
      ((s.filter (fun x => decide (p < x.Complexity))).length : Int) ≤
        (100 - k) * (s.length : Int) / 100 := by
  obtain ⟨hlt, hv⟩ := Percentile_value s k hne hd h1 h2
  have hb := percentile_index_bounds s.length k (List.length_pos.2 hne) h1 h2
  have hnn : 0 ≤ (100 - k) * (s.length : Int) / 100 :=
    Int.ediv_nonneg (Int.mul_nonneg (by omega) (Int.ofNat_nonneg _)) (by omega)
  generalize hi : (max 0 ((100 - k) * (s.length : Int) / 100 - 1)).toNat = i at hlt hv
  have hdrop := filter_greater_drop s hd i hlt
  have hmem : ∃ x ∈ s, x.Complexity = s.key i := by
    refine ⟨s[i], List.getElem_mem hlt, ?_⟩
    unfold Stats.key
    rw [at_eq_getElem s hlt]
  generalize s.key i = p at hv hdrop hmem
  refine ⟨p, hv, hmem, ?_⟩
  have hsplit : s.filter (fun x => decide (p < x.Complexity)) =
      (s.take i).filter (fun x => decide (p < x.Complexity)) := by
    conv_lhs => rw [← List.take_append_drop i s]
    rw [List.filter_append, hdrop, List.append_nil]
  rw [hsplit]
  have hle : ((s.take i).filter (fun x => decide (p < x.Complexity))).length ≤ i :=
    le_trans (List.length_filter_le _ _) (by rw [List.length_take]; exact Nat.min_le_left _ _)
  omega

theorem C18_percentile_rank_witness :
    Stats.ofComplexities [9, 5, 5, 2, 1] ≠ [] ∧
    Descending (Stats.ofComplexities [9, 5, 5, 2, 1]) ∧ (1 : Int) ≤ 50 ∧ (50 : Int) ≤ 99 ∧
    ∃ p, (Stats.ofComplexities [9, 5, 5, 2, 1]).Percentile 50 = Outcome.returns (p, none) ∧
      (∃ x ∈ Stats.ofComplexities [9, 5, 5, 2, 1], x.Complexity = p) ∧
      (((Stats.ofComplexities [9, 5, 5, 2, 1]).filter
        (fun x => decide (p < x.Complexity))).length : Int) ≤
        (100 - 50) * ((Stats.ofComplexities [9, 5, 5, 2, 1]).length : Int) / 100 :=
  ⟨by decide, by decide, by decide, by decide,
    C18_percentile_rank (Stats.ofComplexities [9, 5, 5, 2, 1]) 50 (by decide) (by decide)
      (by decide) (by decide)⟩

end OrderClaims

/-! ## float64: rounding error of conversion and division -/

section Float64Proof

theorem float64_log2_spec : ∀ (fuel n : Nat), 1 ≤ n → n ≤ fuel →
    2 ^ Float64.log2 fuel n ≤ n ∧ n < 2 ^ (Float64.log2 fuel n + 1)
  | 0, n, h1, h2 => by omega
  | fuel + 1, n, h1, h2 => by
    unfold Float64.log2
    by_cases hn : n < 2
    · rw [if_pos hn]
      simp
      omega
    · rw [if_neg hn]
      have ih := float64_log2_spec fuel (n / 2) (by omega) (by omega)
      rw [Nat.pow_succ, Nat.pow_succ]
      omega

theorem two_zpow_split (e : Int) :
    (2 : ℚ) ^ e = (2 : ℚ) ^ e.toNat / (2 : ℚ) ^ (-e).toNat := by
  rcases le_or_lt 0 e with h | h
  · have h1 : (-e).toNat = 0 := by omega
    rw [h1, pow_zero, div_one]
    conv_lhs => rw [← Int.toNat_of_nonneg h]
    rw [zpow_natCast]
  · have h1 : e.toNat = 0 := by omega
    have h2 : e = -((-e).toNat : Int) := by omega
    rw [h1, pow_zero]
    conv_lhs => rw [h2]
    rw [zpow_neg, zpow_natCast, one_div]

theorem roundHalfEven_spec (num den : Nat) (hden : 0 < den) :
    2 * (Float64.roundHalfEven num den * den) ≤ 2 * num + den ∧
      2 * num ≤ 2 * (Float64.roundHalfEven num den * den) + den := by
  have hdm := Nat.div_add_mod num den
  have hlt := Nat.mod_lt num hden
  have hq : num / den * den = den * (num / den) := Nat.mul_comm _ _
  have hq1 : (num / den + 1) * den = den * (num / den) + den := by ring
  unfold Float64.roundHalfEven
  split_ifs <;> first
    | (rw [hq]; omega)
    | (rw [hq1]; omega)

end Float64Proof

section Float64Proof2

theorem floorLog2_spec (a n : Nat) (ha : 0 < a) (hn : 0 < n) :
    (n : ℚ) * (2 : ℚ) ^ Float64.floorLog2 a n ≤ a ∧
      (a : ℚ) < n * (2 : ℚ) ^ (Float64.floorLog2 a n + 1) := by
  obtain ⟨ha1, ha2⟩ := float64_log2_spec a a ha (le_refl _)
  obtain ⟨hn1, hn2⟩ := float64_log2_spec n n hn (le_refl _)
  generalize hla : Float64.log2 a a = la at ha1 ha2
  generalize hln : Float64.log2 n n = ln at hn1 hn2
  have qa1 : (2 : ℚ) ^ la ≤ a := by exact_mod_cast ha1
  have qa2 : (a : ℚ) < 2 * 2 ^ la := by
    have : (a : ℚ) < 2 ^ (la + 1) := by exact_mod_cast ha2
    rwa [pow_succ, mul_comm] at this
  have qn1 : (2 : ℚ) ^ ln ≤ n := by exact_mod_cast hn1
  have qn2 : (n : ℚ) < 2 * 2 ^ ln := by
    have : (n : ℚ) < 2 ^ (ln + 1) := by exact_mod_cast hn2
    rwa [pow_succ, mul_comm] at this
  have hLpos : (0 : ℚ) < 2 ^ ((la : Int) - (ln : Int)) := zpow_pos (by norm_num) _
  have hL : (2 : ℚ) ^ ((la : Int) - (ln : Int)) * 2 ^ ln = 2 ^ la := by
    rw [zpow_sub₀ (by norm_num), zpow_natCast, zpow_natCast]
    field_simp
  have hnpos : (0 : ℚ) < n := by exact_mod_cast hn
  have hlnpos : (0 : ℚ) < 2 ^ ln := pow_pos (by norm_num) _
  have hsplit := two_zpow_split ((la : Int) - (ln : Int))
  have hneg : (-((la : Int) - (ln : Int))) = (ln : Int) - (la : Int) := by ring
  rw [hneg] at hsplit
  have hdpos : (0 : ℚ) < 2 ^ ((ln : Int) - (la : Int)).toNat := pow_pos (by norm_num) _
  unfold Float64.floorLog2
  rw [hla, hln]
  by_cases htest : n * 2 ^ ((la : Int) - (ln : Int)).toNat ≤
      a * 2 ^ ((ln : Int) - (la : Int)).toNat
  · rw [if_pos htest]
    have qtest : (n : ℚ) * 2 ^ ((la : Int) - (ln : Int)).toNat ≤
        a * 2 ^ ((ln : Int) - (la : Int)).toNat := by exact_mod_cast htest
    constructor
    · rw [hsplit, ← mul_div_assoc, div_le_iff₀ hdpos]
      exact qtest
    · rw [zpow_add_one₀ (by norm_num)]
      nlinarith
  · rw [if_neg htest]
    have qtest : (a : ℚ) * 2 ^ ((ln : Int) - (la : Int)).toNat <
        n * 2 ^ ((la : Int) - (ln : Int)).toNat := by
      have := Nat.lt_of_not_le htest
      exact_mod_cast this
    have hlt : (a : ℚ) < n * 2 ^ ((la : Int) - (ln : Int)) := by
      rw [hsplit, ← mul_div_assoc, lt_div_iff₀ hdpos]
      exact qtest
    constructor
    · rw [zpow_sub_one₀ (by norm_num)]
      have : (n : ℚ) * (2 ^ ((la : Int) - (ln : Int)) * 2⁻¹) =
          n * 2 ^ ((la : Int) - (ln : Int)) / 2 := by ring
      rw [this]
      nlinarith
    · rw [sub_add_cancel]
      exact hlt

/-- The rounded quotient: the float64 chosen for a / n is within half a unit in
the last place, a relative error of at most 2^-53. -/
theorem ofQuotient_spec (a n : Nat) (ha : 0 < a) (hn : 0 < n) :
    ∃ m e, Float64.ofQuotient a n = Float64.finite m e ∧
      |(m : ℚ) * (2 : ℚ) ^ e - (a : ℚ) / n| ≤ (a : ℚ) / n / 2 ^ 53 := by
  obtain ⟨hf1, hf2⟩ := floorLog2_spec a n ha hn
  have hval : ∀ m e, Float64.ofQuotient a n = Float64.finite m e →
      ∃ m₀ : Nat, (m : ℚ) * (2 : ℚ) ^ e =
        (m₀ : ℚ) * (2 : ℚ) ^ (Float64.floorLog2 a n - 52) ∧
        m₀ = Float64.roundHalfEven (a * 2 ^ (-(Float64.floorLog2 a n - 52)).toNat)
          (n * 2 ^ (Float64.floorLog2 a n - 52).toNat) := by
    intro m e h
    unfold Float64.ofQuotient at h
    simp only [] at h
    split_ifs at h with c
    · injection h with h1 h2
      refine ⟨_, ?_, rfl⟩
      rw [c, ← h1, ← h2, zpow_add_one₀ (by norm_num)]
      push_cast
      ring
    · injection h with h1 h2
      refine ⟨_, ?_, rfl⟩
      rw [← h1, ← h2]
  have hex : ∃ m e, Float64.ofQuotient a n = Float64.finite m e := by
    unfold Float64.ofQuotient
    simp only []
    split_ifs
    · exact ⟨_, _, rfl⟩
    · exact ⟨_, _, rfl⟩
  obtain ⟨m, e, hme⟩ := hex
  refine ⟨m, e, hme, ?_⟩
  obtain ⟨m₀, hv, hm₀⟩ := hval m e hme
  rw [hv]
  generalize Float64.floorLog2 a n = p at hf1 hf2 hm₀
  have hr := roundHalfEven_spec (a * 2 ^ (-(p - 52)).toNat) (n * 2 ^ (p - 52).toNat)
    (Nat.mul_pos hn (Nat.pow_pos (by norm_num)))
  rw [← hm₀] at hr
  have hnq : (0 : ℚ) < n := by exact_mod_cast hn
  have haq : (0 : ℚ) < a := by exact_mod_cast ha
  have hNpos : (0 : ℚ) < 2 ^ (-(p - 52)).toNat := pow_pos (by norm_num) _
  have hEpos : (0 : ℚ) < 2 ^ (p - 52) := zpow_pos (by norm_num) _
  have hD : (2 : ℚ) ^ (p - 52).toNat = 2 ^ (p - 52) * 2 ^ (-(p - 52)).toNat := by
    rw [two_zpow_split (p - 52)]
    field_simp
  have hr1 : (2 : ℚ) * ((m₀ : ℚ) * ((n : ℚ) * 2 ^ (p - 52).toNat)) ≤
      2 * ((a : ℚ) * 2 ^ (-(p - 52)).toNat) + (n : ℚ) * 2 ^ (p - 52).toNat := by
    exact_mod_cast hr.1
  have hr2 : (2 : ℚ) * ((a : ℚ) * 2 ^ (-(p - 52)).toNat) ≤
      2 * ((m₀ : ℚ) * ((n : ℚ) * 2 ^ (p - 52).toNat)) + (n : ℚ) * 2 ^ (p - 52).toNat := by
    exact_mod_cast hr.2
  rw [hD] at hr1 hr2
  have hE : (2 : ℚ) ^ (p - 52) = 2 ^ p / 2 ^ 52 := by
    rw [zpow_sub₀ (by norm_num)]
    norm_num
  generalize (2 : ℚ) ^ (-(p - 52)).toNat = N at hNpos hr1 hr2
  have ht : (a : ℚ) = (a : ℚ) / n * n := by field_simp
  generalize (a : ℚ) / n = t at ht
  have htpos : 0 < t := by
    by_contra hneg
    push_neg at hneg
    have : t * n ≤ 0 := mul_nonpos_of_nonpos_of_nonneg hneg (le_of_lt hnq)
    linarith
  have hpt : (2 : ℚ) ^ p ≤ t := by
    have h1 : (n : ℚ) * 2 ^ p ≤ t * n := by rw [← ht]; exact hf1
    have h2 : (2 : ℚ) ^ p * n ≤ t * n := by rw [mul_comm]; exact h1
    exact le_of_mul_le_mul_right h2 hnq
  have hEt : (2 : ℚ) ^ (p - 52) ≤ t / 2 ^ 52 := by
    rw [hE]
    exact div_le_div_of_nonneg_right hpt (by positivity)
  generalize (2 : ℚ) ^ (p - 52) = E at hEpos hr1 hr2 hEt
  have hnN : (0 : ℚ) < n * N := mul_pos hnq hNpos
  have k1 : (n : ℚ) * N * (2 * (m₀ * E)) ≤ n * N * (2 * t + E) := by
    rw [ht] at hr1
    nlinarith
  have k2 : (n : ℚ) * N * (2 * t) ≤ n * N * (2 * (m₀ * E) + E) := by
    rw [ht] at hr2
    nlinarith
  have k1b := le_of_mul_le_mul_left k1 hnN
  have k2b := le_of_mul_le_mul_left k2 hnN
  have h53 : t / 2 ^ 53 = t / 2 ^ 52 / 2 := by
    rw [div_div]
    norm_num
  rw [abs_le, h53]
  constructor <;> linarith

end Float64Proof2

section Float64Proof3

/-- Three roundings with relative error at most u each (numerator, denominator,
quotient) give a relative error of at most 4 u. -/
theorem rounding_compose (T n A N r u : ℚ) (hT : 0 < T) (hn : 0 < n) (hu0 : 0 ≤ u)
    (hu : u ≤ 1 / 5) (hA : |A - T| ≤ T * u) (hN : |N - n| ≤ n * u)
    (hr : |r - A / N| ≤ A / N * u) : |r - T / n| ≤ T / n * (4 * u) := by
  rw [abs_le] at hA hN hr
  obtain ⟨hA1, hA2⟩ := hA
  obtain ⟨hN1, hN2⟩ := hN
  obtain ⟨hr1, hr2⟩ := hr
  have hNpos : 0 < N := by nlinarith
  have hApos : 0 < A := by nlinarith
  have hq : A = A / N * N := by field_simp
  generalize A / N = q at hq hr1 hr2
  have hqpos : 0 < q := by
    by_contra hneg
    push_neg at hneg
    have : q * N ≤ 0 := mul_nonpos_of_nonpos_of_nonneg hneg (le_of_lt hNpos)
    linarith
  have hTt : T = T / n * n := by field_simp
  generalize T / n = t at hTt
  have htpos : 0 < t := by
    by_contra hneg
    push_neg at hneg
    have : t * n ≤ 0 := mul_nonpos_of_nonpos_of_nonneg hneg (le_of_lt hn)
    linarith
  have h1u : 0 < 1 - u := by linarith
  -- q (1 - u) ≤ t (1 + u) and t (1 - u) ≤ q (1 + u)
  have s1 : q * (1 - u) ≤ t * (1 + u) := by
    have a1 : q * (n * (1 - u)) ≤ q * N := by
      apply mul_le_mul_of_nonneg_left _ (le_of_lt hqpos)
      linarith
    have a2 : n * (q * (1 - u)) ≤ n * (t * (1 + u)) := by
      have : q * N ≤ t * n * (1 + u) := by rw [← hq, ← hTt]; linarith
      nlinarith
    exact le_of_mul_le_mul_left a2 hn
  have s2 : t * (1 - u) ≤ q * (1 + u) := by
    have a1 : q * N ≤ q * (n * (1 + u)) := by
      apply mul_le_mul_of_nonneg_left _ (le_of_lt hqpos)
      linarith
    have a2 : n * (t * (1 - u)) ≤ n * (q * (1 + u)) := by
      have : t * n * (1 - u) ≤ q * N := by rw [← hq, ← hTt]; linarith
      nlinarith
    exact le_of_mul_le_mul_left a2 hn
  rw [abs_le]
  constructor
  · -- t (1 - 4 u) ≤ r
    have b1 : q * (1 - u) ≤ r := by linarith
    have b2 : t * (1 - u) * (1 - u) ≤ q * (1 + u) * (1 - u) :=
      mul_le_mul_of_nonneg_right s2 (le_of_lt h1u)
    have b3 : q * (1 - u) * (1 + u) ≤ r * (1 + u) :=
      mul_le_mul_of_nonneg_right b1 (by linarith)
    have b4 : t * (1 - 4 * u) * (1 + u) ≤ t * (1 - u) * (1 - u) := by
      have : 0 ≤ t * (u + 5 * u * u) := mul_nonneg (le_of_lt htpos) (by nlinarith)
      nlinarith
    have b5 : (1 + u) * (t * (1 - 4 * u)) ≤ (1 + u) * r := by nlinarith
    have := le_of_mul_le_mul_left b5 (by linarith : (0 : ℚ) < 1 + u)
    linarith
  · -- r ≤ t (1 + 4 u)
    have b1 : r ≤ q * (1 + u) := by linarith
    have b2 : q * (1 - u) * (1 + u) ≤ t * (1 + u) * (1 + u) :=
      mul_le_mul_of_nonneg_right s1 (by linarith)
    have b3 : r * (1 - u) ≤ q * (1 + u) * (1 - u) :=
      mul_le_mul_of_nonneg_right b1 (le_of_lt h1u)
    have b4 : t * (1 + u) * (1 + u) ≤ t * (1 + 4 * u) * (1 - u) := by
      have : 0 ≤ t * (u * (1 - 5 * u)) :=
        mul_nonneg (le_of_lt htpos) (mul_nonneg hu0 (by linarith))
      nlinarith
    have b5 : (1 - u) * r ≤ (1 - u) * (t * (1 + 4 * u)) := by nlinarith
    have := le_of_mul_le_mul_left b5 h1u
    linarith

theorem float64_ofNat_spec (x : Nat) :
    ∃ m e, Float64.ofNat x = Float64.finite m e ∧
      |(m : ℚ) * (2 : ℚ) ^ e - (x : ℚ)| ≤ (x : ℚ) / 2 ^ 53 ∧ (x = 0 → m = 0) := by
  unfold Float64.ofNat
  by_cases hx : x = 0
  · rw [if_pos hx]
    refine ⟨0, 0, rfl, ?_, fun _ => rfl⟩
    subst hx
    simp
  · rw [if_neg hx]
    obtain ⟨m, e, h1, h2⟩ := ofQuotient_spec x 1 (Nat.pos_of_ne_zero hx) (by norm_num)
    refine ⟨m, e, h1, ?_, fun h => absurd h hx⟩
    simpa using h2

theorem float64_div_spec (m₁ m₂ : Nat) (e₁ e₂ : Int) (h1 : 0 < m₁) (h2 : 0 < m₂) :
    ∃ m e, Float64.div (Float64.finite m₁ e₁) (Float64.finite m₂ e₂) = Float64.finite m e ∧
      |(m : ℚ) * (2 : ℚ) ^ e - (m₁ : ℚ) * (2 : ℚ) ^ e₁ / ((m₂ : ℚ) * (2 : ℚ) ^ e₂)| ≤
        (m₁ : ℚ) * (2 : ℚ) ^ e₁ / ((m₂ : ℚ) * (2 : ℚ) ^ e₂) / 2 ^ 53 := by
  obtain ⟨m, e, hq, hb⟩ := ofQuotient_spec m₁ m₂ h1 h2
  refine ⟨m, e + e₁ - e₂, ?_, ?_⟩
  · simp only [Float64.div]
    rw [if_neg (Nat.pos_iff_ne_zero.1 h2), if_neg (Nat.pos_iff_ne_zero.1 h1), hq]
  · have hS : (0 : ℚ) < 2 ^ (e₁ - e₂) := zpow_pos (by norm_num) _
    have hm2 : (m₂ : ℚ) ≠ 0 := by exact_mod_cast (Nat.pos_iff_ne_zero.1 h2)
    have e1 : (m : ℚ) * (2 : ℚ) ^ (e + e₁ - e₂) = (m : ℚ) * 2 ^ e * 2 ^ (e₁ - e₂) := by
      rw [add_sub_assoc, zpow_add₀ (by norm_num)]
      ring
    have e2 : (m₁ : ℚ) * (2 : ℚ) ^ e₁ / ((m₂ : ℚ) * (2 : ℚ) ^ e₂) =
        (m₁ : ℚ) / m₂ * 2 ^ (e₁ - e₂) := by
      rw [zpow_sub₀ (by norm_num)]
      field_simp
    rw [e1, e2, ← sub_mul, abs_mul, abs_of_pos hS]
    have := mul_le_mul_of_nonneg_right hb (le_of_lt hS)
    calc |(m : ℚ) * 2 ^ e - (m₁ : ℚ) / m₂| * 2 ^ (e₁ - e₂)
        ≤ (m₁ : ℚ) / m₂ / 2 ^ 53 * 2 ^ (e₁ - e₂) := this
      _ = (m₁ : ℚ) / m₂ * 2 ^ (e₁ - e₂) / 2 ^ 53 := by ring

/-- AverageComplexity of a non-empty s is a finite float64 whose value differs
from TotalComplexity / len by a relative error of at most 2^-51. -/
theorem averageComplexity_spec (s : Stats) (hne : s ≠ []) :
    ∃ m e, s.AverageComplexity = Float64.finite m e ∧
      |(m : ℚ) * (2 : ℚ) ^ e - (s.TotalComplexity : ℚ) / (s.length : ℚ)| ≤
        (s.TotalComplexity : ℚ) / (s.length : ℚ) / 2 ^ 51 := by
  have hlen : 0 < s.length := List.length_pos.2 hne
  unfold Stats.AverageComplexity
  obtain ⟨m₁, e₁, hT, hTb, hT0⟩ := float64_ofNat_spec s.TotalComplexity
  obtain ⟨m₂, e₂, hN, hNb, _⟩ := float64_ofNat_spec s.length
  generalize s.TotalComplexity = T at hT hTb hT0
  generalize s.length = n at hlen hN hNb
  rw [hT, hN]
  have hnq : (0 : ℚ) < n := by exact_mod_cast hlen
  have hNval : (0 : ℚ) < (m₂ : ℚ) * 2 ^ e₂ := by
    rw [abs_le] at hNb
    have : (n : ℚ) / 2 ^ 53 < n := by
      rw [div_lt_iff₀ (by positivity)]
      have : (1 : ℚ) < 2 ^ 53 := by norm_num
      nlinarith
    linarith [hNb.1]
  have hm2 : 0 < m₂ := by
    rcases Nat.eq_zero_or_pos m₂ with h0 | h0
    · rw [h0] at hNval; simp at hNval
    · exact h0
  by_cases hT0' : T = 0
  · have hm1 : m₁ = 0 := hT0 hT0'
    subst hm1 hT0'
    refine ⟨0, 0, ?_, by simp⟩
    simp only [Float64.div]
    rw [if_neg (Nat.pos_iff_ne_zero.1 hm2), if_pos trivial]
  · have hTq : (0 : ℚ) < T := by exact_mod_cast Nat.pos_of_ne_zero hT0'
    have hTval : (0 : ℚ) < (m₁ : ℚ) * 2 ^ e₁ := by
      rw [abs_le] at hTb
      have : (T : ℚ) / 2 ^ 53 < T := by
        rw [div_lt_iff₀ (by positivity)]
        have : (1 : ℚ) < 2 ^ 53 := by norm_num
        nlinarith
      linarith [hTb.1]
    have hm1 : 0 < m₁ := by
      rcases Nat.eq_zero_or_pos m₁ with h0 | h0
      · rw [h0] at hTval; simp at hTval
      · exact h0
    obtain ⟨m, e, hd, hdb⟩ := float64_div_spec m₁ m₂ e₁ e₂ hm1 hm2
    refine ⟨m, e, hd, ?_⟩
    have hu : (1 : ℚ) / 2 ^ 53 ≤ 1 / 5 := by norm_num
    have := rounding_compose (T : ℚ) (n : ℚ) ((m₁ : ℚ) * 2 ^ e₁) ((m₂ : ℚ) * 2 ^ e₂)
      ((m : ℚ) * 2 ^ e) (1 / 2 ^ 53) hTq hnq (by positivity) hu
      (by rw [mul_one_div]; exact hTb) (by rw [mul_one_div]; exact hNb)
      (by rw [mul_one_div]; exact hdb)
    calc |(m : ℚ) * 2 ^ e - (T : ℚ) / n| ≤ (T : ℚ) / n * (4 * (1 / 2 ^ 53)) := this
      _ = (T : ℚ) / n / 2 ^ 51 := by norm_num; ring

end Float64Proof3

section Float64Proof4

/-- The conversion float64(x) is exact for x below 2^53. -/
theorem float64_ofNat_exact (x : Nat) (hx : x < 2 ^ 53) :
    ∃ m e, Float64.ofNat x = Float64.finite m e ∧ (m : ℚ) * (2 : ℚ) ^ e = (x : ℚ) := by
  unfold Float64.ofNat
  by_cases h0 : x = 0
  · rw [if_pos h0]
    refine ⟨0, 0, rfl, ?_⟩
    subst h0
    simp
  · rw [if_neg h0]
    have hpos : 0 < x := Nat.pos_of_ne_zero h0
    obtain ⟨hf1, hf2⟩ := floorLog2_spec x 1 hpos (by norm_num)
    have hxq : (x : ℚ) < 2 ^ (53 : Int) := by
      have : (x : ℚ) < 2 ^ 53 := by exact_mod_cast hx
      rw [show ((53 : Int)) = ((53 : Nat) : Int) from rfl, zpow_natCast]
      exact this
    have hp : Float64.floorLog2 x 1 ≤ 52 := by
      by_contra hgt
      push_neg at hgt
      have h53 : (2 : ℚ) ^ (53 : Int) ≤ 2 ^ Float64.floorLog2 x 1 :=
        zpow_le_zpow_right₀ (by norm_num) (by omega)
      have : (2 : ℚ) ^ Float64.floorLog2 x 1 ≤ x := by simpa using hf1
      linarith
    unfold Float64.ofQuotient
    simp only []
    generalize Float64.floorLog2 x 1 = p at hp
    have e1 : (p - 52).toNat = 0 := by omega
    have hnum : Float64.roundHalfEven (x * 2 ^ (-(p - 52)).toNat) (1 * 2 ^ (p - 52).toNat) =
        x * 2 ^ (-(p - 52)).toNat := by
      rw [e1]
      unfold Float64.roundHalfEven
      rw [pow_zero, Nat.mul_one, Nat.mod_one, if_pos (by norm_num), Nat.div_one]
    rw [hnum]
    have hval : ((x * 2 ^ (-(p - 52)).toNat : Nat) : ℚ) * (2 : ℚ) ^ (p - 52) = (x : ℚ) := by
      rw [two_zpow_split (p - 52), e1]
      push_cast
      have : (2 : ℚ) ^ (-(p - 52)).toNat ≠ 0 := pow_ne_zero _ (by norm_num)
      field_simp
    split_ifs with c
    · refine ⟨_, _, rfl, ?_⟩
      rw [← hval, c, zpow_add_one₀ (by norm_num)]
      push_cast
      ring
    · exact ⟨_, _, rfl, hval⟩

/-- When the total and the count are below 2^53 only the division rounds:
AverageComplexity is within half a unit in the last place of the quotient. -/
theorem averageComplexity_spec_small (s : Stats) (hne : s ≠ [])
    (hT : s.TotalComplexity < 2 ^ 53) (hn : s.length < 2 ^ 53) :
    ∃ m e, s.AverageComplexity = Float64.finite m e ∧
      |(m : ℚ) * (2 : ℚ) ^ e - (s.TotalComplexity : ℚ) / (s.length : ℚ)| ≤
        (s.TotalComplexity : ℚ) / (s.length : ℚ) / 2 ^ 53 := by
  have hlen : 0 < s.length := List.length_pos.2 hne
  unfold Stats.AverageComplexity
  obtain ⟨m₁, e₁, hTe, hTv⟩ := float64_ofNat_exact s.TotalComplexity hT
  obtain ⟨m₂, e₂, hNe, hNv⟩ := float64_ofNat_exact s.length hn
  generalize s.TotalComplexity = T at hTe hTv
  generalize s.length = n at hlen hNe hNv
  rw [hTe, hNe]
  have hnq : (0 : ℚ) < n := by exact_mod_cast hlen
  have hm2 : 0 < m₂ := by
    rcases Nat.eq_zero_or_pos m₂ with h0 | h0
    · rw [h0] at hNv
      simp at hNv
      linarith
    · exact h0
  by_cases hm1 : m₁ = 0
  · subst hm1
    have hT0 : (T : ℚ) = 0 := by rw [← hTv]; simp
    refine ⟨0, 0, ?_, by rw [hT0]; simp⟩
    simp only [Float64.div]
    rw [if_neg (Nat.pos_iff_ne_zero.1 hm2), if_pos trivial]
  · obtain ⟨m, e, hd, hdb⟩ := float64_div_spec m₁ m₂ e₁ e₂ (Nat.pos_of_ne_zero hm1) hm2
    refine ⟨m, e, hd, ?_⟩
    rw [hTv, hNv] at hdb
    exact hdb

end Float64Proof4

/-! ## The claim about AverageComplexity -/

section AverageClaims

/-- C10 as stated fails: for the complexities 1, 1, 2 the total is 4 and the
count 3, and AverageComplexity is the float64 6004799503160661 * 2^-52, which is
not 4/3; for the single complexity 2^53 + 1 it is 2^53, not 2^53 + 1. -/
theorem C10_average_is_not_the_exact_quotient :
    (Stats.ofComplexities [1, 1, 2]).AverageComplexity =
      Float64.finite 6004799503160661 (-52) ∧
    (Stats.ofComplexities [1, 1, 2]).AverageComplexity.value ≠
      some (((Stats.ofComplexities [1, 1, 2]).TotalComplexity : ℚ) /
        ((Stats.ofComplexities [1, 1, 2]).length : ℚ)) ∧
    (Stats.ofComplexities [2 ^ 53 + 1]).AverageComplexity.value ≠
      some (((Stats.ofComplexities [2 ^ 53 + 1]).TotalComplexity : ℚ) /
        ((Stats.ofComplexities [2 ^ 53 + 1]).length : ℚ)) := by
  have h1 : (Stats.ofComplexities [1, 1, 2]).AverageComplexity =
      Float64.finite 6004799503160661 (-52) := by decide
  have h2 : (Stats.ofComplexities [1, 1, 2]).TotalComplexity = 4 := by decide
  have h3 : (Stats.ofComplexities [2 ^ 53 + 1]).AverageComplexity =
      Float64.finite (2 ^ 52) 1 := by decide
  have h4 : (Stats.ofComplexities [2 ^ 53 + 1]).TotalComplexity = 2 ^ 53 + 1 := by decide
  refine ⟨h1, ?_, ?_⟩
  · rw [h1, h2]
    simp only [Float64.value, Stats.ofComplexities, List.map, List.length]
    norm_num
  · rw [h3, h4]
    simp only [Float64.value, Stats.ofComplexities, List.map, List.length]
    norm_num

/-- C10 as amended: for every non-empty Stats s, AverageComplexity() is a finite
float64 that equals TotalComplexity() divided by the number of entries of s up
to float64 rounding: the relative error is at most 2^-51, and at most 2^-53
(half a unit in the last place) when the total and the count are below 2^53;
the complexities 2, 3 give exactly 2.5 and 2, 3, 3, 3 give exactly 2.75. -/
theorem C10_average_is_the_rounded_quotient (s : Stats) (hne : s ≠ []) :
    (∃ v, s.AverageComplexity.value = some v ∧
      |v - (s.TotalComplexity : ℚ) / (s.length : ℚ)| ≤
        (s.TotalComplexity : ℚ) / (s.length : ℚ) / 2 ^ 51 ∧
      (s.TotalComplexity < 2 ^ 53 → s.length < 2 ^ 53 →
        |v - (s.TotalComplexity : ℚ) / (s.length : ℚ)| ≤
          (s.TotalComplexity : ℚ) / (s.length : ℚ) / 2 ^ 53)) ∧
    (Stats.ofComplexities [2, 3]).AverageComplexity.value = some (5 / 2) ∧
    (Stats.ofComplexities [2, 3, 3, 3]).AverageComplexity.value = some (11 / 4) := by
  obtain ⟨m, e, h1, h2⟩ := averageComplexity_spec s hne
  have e1 : (Stats.ofComplexities [2, 3]).AverageComplexity =
      Float64.finite 5629499534213120 (-51) := by decide
  have e2 : (Stats.ofComplexities [2, 3, 3, 3]).AverageComplexity =
      Float64.finite 6192449487634432 (-51) := by decide
  refine ⟨⟨_, by rw [h1]; rfl, h2, ?_⟩, ?_, ?_⟩
  · intro hT hn
    obtain ⟨m₁, e₁, k1, k2⟩ := averageComplexity_spec_small s hne hT hn
    rw [h1] at k1
    injection k1 with hm he
    rw [hm, he]
    exact k2
  · rw [e1]
    simp only [Float64.value]
    norm_num
  · rw [e2]
    simp only [Float64.value]
    norm_num

theorem C10_average_is_the_rounded_quotient_witness :
    Stats.ofComplexities [1, 1, 2] ≠ [] ∧
    (Stats.ofComplexities [1, 1, 2]).TotalComplexity < 2 ^ 53 ∧
    (Stats.ofComplexities [1, 1, 2]).length < 2 ^ 53 ∧
    ∃ v, (Stats.ofComplexities [1, 1, 2]).AverageComplexity.value = some v ∧
      |v - ((Stats.ofComplexities [1, 1, 2]).TotalComplexity : ℚ) /
          ((Stats.ofComplexities [1, 1, 2]).length : ℚ)| ≤
        ((Stats.ofComplexities [1, 1, 2]).TotalComplexity : ℚ) /
          ((Stats.ofComplexities [1, 1, 2]).length : ℚ) / 2 ^ 53 :=
  ⟨by decide, by decide, by decide,
    match (C10_average_is_the_rounded_quotient (Stats.ofComplexities [1, 1, 2])
      (by decide)).1 with
    | ⟨v, hv, _, h53⟩ => ⟨v, hv, h53 (by decide) (by decide)⟩⟩

end AverageClaims

end Gocyclo
